import Mathlib

/-!
Verification of the tag-driven encrypt/decrypt traversal engine of the
`go-logging` repository (`encrypt.go`, `logger.go`, `utils.go`).

The engine walks Go values via reflection.  We embed the Go data model as an
inductive type `Val` of value shapes the traversal distinguishes by
`reflect.Kind` and type checks: strings, ints, bools, `time.Time` (opaque,
represented by a `Nat` token), pointers to strings / times / structs
(with explicit nil), structs (ordered field lists, each field carrying its
struct-tag key/value pairs), and slices.

The leaf cipher (`Encrypt` / `Decrypt`) is an external collaborator of the
repository (not part of the given source files); the embedding is
parameterized by a leaf function `Leaf` of the same shape
`(value, key) -> (result, error)`.
-/

namespace GoLogging

mutual
/-- A Go value as seen by the reflective traversal in `encrypt.go`. -/
inductive Val : Type where
  | vstr : String → Val
  | vint : Int → Val
  | vbool : Bool → Val
  | vtime : Nat → Val
  | vptrStr : Option String → Val
  | vptrTime : Option Nat → Val
  | vstruct : Fields → Val
  | vptrStructNil : Val
  | vptrStruct : Fields → Val
  | vslice : VList → Val

/-- Ordered fields of a struct; each field carries its struct-tag
association list (tag key, tag value) and its value. -/
inductive Fields : Type where
  | nil : Fields
  | cons : List (String × String) → Val → Fields → Fields

/-- Elements of a slice, in order. -/
inductive VList : Type where
  | nil : VList
  | cons : Val → VList → VList
end

/-- A leaf cipher `(value, key) -> (result, error)`, the shape of the external
`Encrypt` and `Decrypt` collaborators consumed by `encrypt.go`. -/
abbrev Leaf := String → String → Except String String

/-- Modelled from the spec: the Duplication Engine `Copy` (§4.1; the function
is called by `encrypt.go` but its definition is not among the given source
files) returns a copy observably equal to its input, with no aliasing.  In
this pure value model values are immutable, so the observably equal
independent copy is the value itself.  (The address-explicit model below
models `Copy` as genuine fresh allocation.) -/
abbrev Copy (v : Val) : Val := v

/-- Go's `reflect.StructTag.Get`: the value under the first matching tag key,
or the empty string when the key is absent. -/
def tagGet (tags : List (String × String)) (tagName : String) : String :=
  match tags.find? (fun p => p.1 == tagName) with
  | some p => p.2
  | none => ""

/-- Sequencing helper for the per-field loop: extend a successful tail
traversal with one processed field, propagating errors and panics. -/
def consRes (tags : List (String × String)) (v : Val) :
    Option (Except String Fields) → Option (Except String Fields)
  | none => none
  | some (.error e) => some (.error e)
  | some (.ok rest) => some (.ok (.cons tags v rest))

mutual
/-- Embeds `StructEncryptTag` (and, with the other leaf, `StructDecryptTag`):
empty-key no-op, deep copy, root pointer unwrap, struct shape check, then the
per-field loop.  `none` is a Go panic (`reflect.Value.Type` on the zero
`Value`, reached exactly for typed-nil pointer roots); `some (r, some e)`
returns `r` together with error `e`; `some (r, none)` is success.
A `time.Time` (or non-nil `*time.Time`) root passes the struct check and is
traversed; its fields (`wall`, `ext`, nil `loc`) match no transform branch,
so it is returned unchanged. -/
def structTagTransform (leaf : Leaf) (key tagName tagVal : String) (input : Val) :
    Option (Val × Option String) :=
  if key = "" then some (input, none) else
  match _copyEq : Copy input with
  | .vstruct fs =>
    match fieldsTagTransform leaf key tagName tagVal fs with
    | none => none
    | some (.error e) => some (input, some e)
    | some (.ok fs') => some (.vstruct fs', none)
  | .vptrStruct fs =>
    match fieldsTagTransform leaf key tagName tagVal fs with
    | none => none
    | some (.error e) => some (input, some e)
    | some (.ok fs') => some (.vptrStruct fs', none)
  | .vtime t => some (.vtime t, none)
  | .vptrTime (some t) => some (.vptrTime (some t), none)
  | .vptrStructNil => none
  | .vptrStr none => none
  | .vptrTime none => none
  | .vstr _ => some (input, some "input is not a struct")
  | .vint _ => some (input, some "input is not a struct")
  | .vbool _ => some (input, some "input is not a struct")
  | .vptrStr (some _) => some (input, some "input is not a struct")
  | .vslice _ => some (input, some "input is not a struct")
termination_by sizeOf input
decreasing_by all_goals (simp only [Copy, id] at _copyEq; subst _copyEq; simp_wf; try omega)

/-- Embeds the per-field loop of `StructEncryptTag` / `StructDecryptTag`
(lines 38–87 resp. 207–256 of `encrypt.go`): skip `time.Time` and
`*time.Time` fields, transform tagged string and tagged non-nil
pointer-to-string fields through the leaf cipher, recurse into struct and
non-nil pointer-to-struct fields via the full struct transform, leave
every other field unchanged; the first leaf error aborts the loop. -/
def fieldsTagTransform (leaf : Leaf) (key tagName tagVal : String) :
    Fields → Option (Except String Fields)
  | .nil => some (.ok .nil)
  | .cons tags v rest =>
    match v with
    | .vtime t => consRes tags (.vtime t) (fieldsTagTransform leaf key tagName tagVal rest)
    | .vptrTime ot => consRes tags (.vptrTime ot) (fieldsTagTransform leaf key tagName tagVal rest)
    | .vstr s =>
      if tagGet tags tagName = tagVal then
        match leaf s key with
        | .error e => some (.error e)
        | .ok s' => consRes tags (.vstr s') (fieldsTagTransform leaf key tagName tagVal rest)
      else consRes tags (.vstr s) (fieldsTagTransform leaf key tagName tagVal rest)
    | .vptrStr (some s) =>
      if tagGet tags tagName = tagVal then
        match leaf s key with
        | .error e => some (.error e)
        | .ok s' => consRes tags (.vptrStr (some s')) (fieldsTagTransform leaf key tagName tagVal rest)
      else consRes tags (.vptrStr (some s)) (fieldsTagTransform leaf key tagName tagVal rest)
    | .vptrStr none => consRes tags (.vptrStr none) (fieldsTagTransform leaf key tagName tagVal rest)
    | .vstruct fs2 =>
      match structTagTransform leaf key tagName tagVal (.vstruct fs2) with
      | none => none
      | some (_, some e) => some (.error e)
      | some (v', none) => consRes tags v' (fieldsTagTransform leaf key tagName tagVal rest)
    | .vptrStruct fs2 =>
      match structTagTransform leaf key tagName tagVal (.vstruct fs2) with
      | none => none
      | some (_, some e) => some (.error e)
      | some (.vstruct fs2', none) =>
        consRes tags (.vptrStruct fs2') (fieldsTagTransform leaf key tagName tagVal rest)
      | some (_, none) => none
    | .vptrStructNil => consRes tags .vptrStructNil (fieldsTagTransform leaf key tagName tagVal rest)
    | .vslice xs => consRes tags (.vslice xs) (fieldsTagTransform leaf key tagName tagVal rest)
    | .vint n => consRes tags (.vint n) (fieldsTagTransform leaf key tagName tagVal rest)
    | .vbool b => consRes tags (.vbool b) (fieldsTagTransform leaf key tagName tagVal rest)
termination_by fs => sizeOf fs
decreasing_by all_goals (simp_wf; try omega)
end

/-- Go `reflect.Kind() == reflect.Struct` on our value model; note that a
`time.Time` value has struct kind. -/
def isStructKind : Val → Bool
  | .vstruct _ => true
  | .vtime _ => true
  | _ => false

/-- Go `Kind() == Ptr && Elem().Kind() == Struct`: a non-nil pointer whose
target has struct kind (`*struct` or non-nil `*time.Time`); for a nil
pointer `Elem()` is the zero `Value` of kind `Invalid`. -/
def isPtrStructKind : Val → Bool
  | .vptrStruct _ => true
  | .vptrTime (some _) => true
  | _ => false

/-- Go `reflect.Kind() == reflect.Slice` on our value model. -/
def isSliceKind : Val → Bool
  | .vslice _ => true
  | _ => false

/-- Sequencing helper for the slice element loop, mirroring `consRes`. -/
def consResL (v : Val) : Option (Except String VList) → Option (Except String VList)
  | none => none
  | some (.error e) => some (.error e)
  | some (.ok rest) => some (.ok (.cons v rest))

/-- Embeds the element loop of `StructSliceEncryptTag` /
`StructSliceDecryptTag` (lines 112–133 resp. 281–302 of `encrypt.go`):
elements of struct kind, and non-nil pointers to struct kind, are passed to
the struct transform (`item.Interface()`, i.e. the element itself, pointer
included) and replaced by its result; every other element is left untouched.
The first error aborts the loop. -/
def sliceElemsTransform (leaf : Leaf) (key tagName tagVal : String) :
    VList → Option (Except String VList)
  | .nil => some (.ok .nil)
  | .cons item rest =>
    if isStructKind item || isPtrStructKind item then
      match structTagTransform leaf key tagName tagVal item with
      | none => none
      | some (_, some e) => some (.error e)
      | some (item', none) => consResL item' (sliceElemsTransform leaf key tagName tagVal rest)
    else consResL item (sliceElemsTransform leaf key tagName tagVal rest)

/-- Embeds `StructSliceEncryptTag` (and, with the other leaf,
`StructSliceDecryptTag`): empty-key no-op, deep copy, slice shape check,
element loop; on any element error the original input is returned with the
error. -/
def structSliceTagTransform (leaf : Leaf) (key tagName tagVal : String) (input : Val) :
    Option (Val × Option String) :=
  if key = "" then some (input, none) else
  match Copy input with
  | .vslice xs =>
    match sliceElemsTransform leaf key tagName tagVal xs with
    | none => none
    | some (.error e) => some (input, some e)
    | some (.ok xs') => some (.vslice xs', none)
  | _ => some (input, some "input is not a slice")

/-- Embeds `InterfaceEncryptTag` (and, with the other leaf,
`InterfaceDecryptTag`): empty-key no-op, then dispatch on the root kind —
struct and non-nil pointer-to-struct roots go to the struct transform, slice
roots to the slice transform, and every other root is returned unchanged
with a nil error. -/
def interfaceTagTransform (leaf : Leaf) (key tagName tagVal : String) (input : Val) :
    Option (Val × Option String) :=
  if key = "" then some (input, none) else
  if isStructKind input || isPtrStructKind input then
    match structTagTransform leaf key tagName tagVal input with
    | none => none
    | some (_, some e) => some (input, some e)
    | some (v', none) => some (v', none)
  else if isSliceKind input then
    match structSliceTagTransform leaf key tagName tagVal input with
    | none => none
    | some (_, some e) => some (input, some e)
    | some (v', none) => some (v', none)
  else some (input, none)

mutual
/-- Embeds `StructEncryptTagInterface` (`encrypt.go` lines 348–432), the
untyped (`interface{}`) counterpart of `StructEncryptTag`; its body is
identical except that nested struct fields recurse through the untyped
function. -/
def structTagTransformI (leaf : Leaf) (key tagName tagVal : String) (input : Val) :
    Option (Val × Option String) :=
  if key = "" then some (input, none) else
  match _copyEqI : Copy input with
  | .vstruct fs =>
    match fieldsTagTransformI leaf key tagName tagVal fs with
    | none => none
    | some (.error e) => some (input, some e)
    | some (.ok fs') => some (.vstruct fs', none)
  | .vptrStruct fs =>
    match fieldsTagTransformI leaf key tagName tagVal fs with
    | none => none
    | some (.error e) => some (input, some e)
    | some (.ok fs') => some (.vptrStruct fs', none)
  | .vtime t => some (.vtime t, none)
  | .vptrTime (some t) => some (.vptrTime (some t), none)
  | .vptrStructNil => none
  | .vptrStr none => none
  | .vptrTime none => none
  | .vstr _ => some (input, some "input is not a struct")
  | .vint _ => some (input, some "input is not a struct")
  | .vbool _ => some (input, some "input is not a struct")
  | .vptrStr (some _) => some (input, some "input is not a struct")
  | .vslice _ => some (input, some "input is not a struct")
termination_by sizeOf input
decreasing_by all_goals (simp only [Copy, id] at _copyEqI; subst _copyEqI; simp_wf; try omega)

/-- Embeds the per-field loop of `StructEncryptTagInterface`
(lines 376–425 of `encrypt.go`); identical to `fieldsTagTransform` except
that struct fields recurse through `structTagTransformI`. -/
def fieldsTagTransformI (leaf : Leaf) (key tagName tagVal : String) :
    Fields → Option (Except String Fields)
  | .nil => some (.ok .nil)
  | .cons tags v rest =>
    match v with
    | .vtime t => consRes tags (.vtime t) (fieldsTagTransformI leaf key tagName tagVal rest)
    | .vptrTime ot => consRes tags (.vptrTime ot) (fieldsTagTransformI leaf key tagName tagVal rest)
    | .vstr s =>
      if tagGet tags tagName = tagVal then
        match leaf s key with
        | .error e => some (.error e)
        | .ok s' => consRes tags (.vstr s') (fieldsTagTransformI leaf key tagName tagVal rest)
      else consRes tags (.vstr s) (fieldsTagTransformI leaf key tagName tagVal rest)
    | .vptrStr (some s) =>
      if tagGet tags tagName = tagVal then
        match leaf s key with
        | .error e => some (.error e)
        | .ok s' => consRes tags (.vptrStr (some s')) (fieldsTagTransformI leaf key tagName tagVal rest)
      else consRes tags (.vptrStr (some s)) (fieldsTagTransformI leaf key tagName tagVal rest)
    | .vptrStr none => consRes tags (.vptrStr none) (fieldsTagTransformI leaf key tagName tagVal rest)
    | .vstruct fs2 =>
      match structTagTransformI leaf key tagName tagVal (.vstruct fs2) with
      | none => none
      | some (_, some e) => some (.error e)
      | some (v', none) => consRes tags v' (fieldsTagTransformI leaf key tagName tagVal rest)
    | .vptrStruct fs2 =>
      match structTagTransformI leaf key tagName tagVal (.vstruct fs2) with
      | none => none
      | some (_, some e) => some (.error e)
      | some (.vstruct fs2', none) =>
        consRes tags (.vptrStruct fs2') (fieldsTagTransformI leaf key tagName tagVal rest)
      | some (_, none) => none
    | .vptrStructNil => consRes tags .vptrStructNil (fieldsTagTransformI leaf key tagName tagVal rest)
    | .vslice xs => consRes tags (.vslice xs) (fieldsTagTransformI leaf key tagName tagVal rest)
    | .vint n => consRes tags (.vint n) (fieldsTagTransformI leaf key tagName tagVal rest)
    | .vbool b => consRes tags (.vbool b) (fieldsTagTransformI leaf key tagName tagVal rest)
termination_by fs => sizeOf fs
decreasing_by all_goals (simp_wf; try omega)
end

/-- Embeds the element loop of `StructSliceEncryptTagInterface`
(lines 450–471 of `encrypt.go`); note the source dispatches struct elements
to the typed `StructEncryptTag`, so this loop coincides with
`sliceElemsTransform`. -/
def sliceElemsTransformI (leaf : Leaf) (key tagName tagVal : String) :
    VList → Option (Except String VList)
  | .nil => some (.ok .nil)
  | .cons item rest =>
    if isStructKind item || isPtrStructKind item then
      match structTagTransform leaf key tagName tagVal item with
      | none => none
      | some (_, some e) => some (.error e)
      | some (item', none) => consResL item' (sliceElemsTransformI leaf key tagName tagVal rest)
    else consResL item (sliceElemsTransformI leaf key tagName tagVal rest)

/-- Embeds `StructSliceEncryptTagInterface` (`encrypt.go` lines 436–474),
the untyped counterpart of `StructSliceEncryptTag`. -/
def structSliceTagTransformI (leaf : Leaf) (key tagName tagVal : String) (input : Val) :
    Option (Val × Option String) :=
  if key = "" then some (input, none) else
  match Copy input with
  | .vslice xs =>
    match sliceElemsTransformI leaf key tagName tagVal xs with
    | none => none
    | some (.error e) => some (input, some e)
    | some (.ok xs') => some (.vslice xs', none)
  | _ => some (input, some "input is not a slice")

/-- Embeds `InterfaceEncryptTagInterface` (`encrypt.go` lines 478–513), the
untyped counterpart of `InterfaceEncryptTag`. -/
def interfaceTagTransformI (leaf : Leaf) (key tagName tagVal : String) (input : Val) :
    Option (Val × Option String) :=
  if key = "" then some (input, none) else
  if isStructKind input || isPtrStructKind input then
    match structTagTransformI leaf key tagName tagVal input with
    | none => none
    | some (_, some e) => some (input, some e)
    | some (v', none) => some (v', none)
  else if isSliceKind input then
    match structSliceTagTransformI leaf key tagName tagVal input with
    | none => none
    | some (_, some e) => some (input, some e)
    | some (v', none) => some (v', none)
  else some (input, none)

/-- Embeds `SetKeyEncrypt` (`logger.go` lines 54–58) as a transition on the
process-wide `keyEncrypt : *string` cell, modelled as `Option String`
(`none` = nil pointer): the key is stored only when the cell is still nil. -/
def SetKeyEncrypt (key : String) (keyEncrypt : Option String) : Option String :=
  match keyEncrypt with
  | none => some key
  | some k => some k

/-- A typed-nil pointer value: a root on which `StructEncryptTag` panics
(`reflect.Value.Type` on the zero `Value` obtained by `Elem()`). -/
def isNilPtr : Val → Bool
  | .vptrStr none => true
  | .vptrTime none => true
  | .vptrStructNil => true
  | _ => false

/-- Length of a slice. -/
def vlen : VList → Nat
  | .nil => 0
  | .cons _ rest => vlen rest + 1

/-- Indexing into a slice. -/
def vget : VList → Nat → Option Val
  | .nil, _ => none
  | .cons v _, 0 => some v
  | .cons _ rest, n + 1 => vget rest n

/-- A leaf cipher that always fails (a failure stub). -/
def leafFail : Leaf := fun _ _ => .error "boom"

/-- The identity leaf cipher; it trivially satisfies the round-trip law. -/
def leafId : Leaf := fun s _ => .ok s

/-- A leaf cipher that visibly changes its input. -/
def leafMark : Leaf := fun s _ => .ok (s ++ "!")

/-- A sample record with one tagged string field. -/
def sampleStruct : Val := .vstruct (.cons [("enc", "x")] (.vstr "alice") .nil)

/-- A sample slice mixing a record element and a non-record element. -/
def sampleSlice : VList :=
  .cons (.vstruct (.cons [("enc", "x")] (.vstr "bob") .nil)) (.cons (.vint 3) .nil)

/-- The `leafMark`-transform of `sampleSlice`. -/
def sampleSliceOut : VList :=
  .cons (.vstruct (.cons [("enc", "x")] (.vstr "bob!") .nil)) (.cons (.vint 3) .nil)

/-!
Address-explicit model.  To reason about the frame property ("the caller's
original value graph is never mutated") we re-embed the same traversal with
pointers and slice backing arrays as explicit heap addresses: `hptr a` and
`hslice a` index a heap (a list of cells), `output.Field(i).Elem().Set` and
`v.Index(i).Set` become heap writes, and the Duplication Engine allocates
fresh cells.  Recursion through the heap is not structural (a cyclic graph
would diverge, as the spec's §9 notes), so the functions take explicit fuel
and return `none` when it runs out (or where Go panics).
-/

mutual
/-- A Go value in the address-explicit model. -/
inductive HVal : Type where
  | hstr : String → HVal
  | hint : Int → HVal
  | hbool : Bool → HVal
  | htime : Nat → HVal
  | hptrNil : HVal
  | hptr : Nat → HVal
  | hstruct : HFields → HVal
  | hslice : Nat → HVal

/-- Ordered struct fields (tags and value) in the address-explicit model. -/
inductive HFields : Type where
  | nil : HFields
  | cons : List (String × String) → HVal → HFields → HFields

/-- Contents of a slice backing array. -/
inductive HList : Type where
  | nil : HList
  | cons : HVal → HList → HList
end

/-- A heap cell: the target of a pointer, or a slice backing array. -/
inductive HCell : Type where
  | cval : HVal → HCell
  | carr : HList → HCell

/-- The heap: cell `a` is `h[a]?`; allocation appends. -/
abbrev Heap := List HCell

mutual
/-- Modelled from the spec: the Duplication Engine `Copy` (§4.1, not among
the given source files) in the address-explicit model — scalars are copied
by value, null references keep their null-ness, every non-null reference and
every slice backing array is duplicated into a freshly allocated cell, and
nested records recurse.  Returns `none` on dangling pointers or when the
fuel runs out (cyclic graphs; §9 of the spec leaves these undefined). -/
def hCopy : Nat → Heap → HVal → Option (Heap × HVal)
  | 0, _, _ => none
  | fuel + 1, h, v =>
    match v with
    | .hstr s => some (h, .hstr s)
    | .hint n => some (h, .hint n)
    | .hbool b => some (h, .hbool b)
    | .htime t => some (h, .htime t)
    | .hptrNil => some (h, .hptrNil)
    | .hptr a =>
      match h[a]? with
      | some (.cval cv) =>
        match hCopy fuel h cv with
        | none => none
        | some (h1, cv') => some (h1 ++ [.cval cv'], .hptr h1.length)
      | _ => none
    | .hslice a =>
      match h[a]? with
      | some (.carr xs) =>
        match hCopyList fuel h xs with
        | none => none
        | some (h1, xs') => some (h1 ++ [.carr xs'], .hslice h1.length)
      | _ => none
    | .hstruct fs =>
      match hCopyFields fuel h fs with
      | none => none
      | some (h1, fs') => some (h1, .hstruct fs')

/-- Field-by-field duplication (spec §4.1). -/
def hCopyFields : Nat → Heap → HFields → Option (Heap × HFields)
  | 0, _, _ => none
  | _ + 1, h, .nil => some (h, .nil)
  | fuel + 1, h, .cons tags v rest =>
    match hCopy fuel h v with
    | none => none
    | some (h1, v') =>
      match hCopyFields fuel h1 rest with
      | none => none
      | some (h2, rest') => some (h2, .cons tags v' rest')

/-- Element-by-element duplication of a backing array (spec §4.1). -/
def hCopyList : Nat → Heap → HList → Option (Heap × HList)
  | 0, _, _ => none
  | _ + 1, h, .nil => some (h, .nil)
  | fuel + 1, h, .cons v rest =>
    match hCopy fuel h v with
    | none => none
    | some (h1, v') =>
      match hCopyList fuel h1 rest with
      | none => none
      | some (h2, rest') => some (h2, .cons v' rest')
end

/-- Go `reflect.Kind() == reflect.Struct` in the address-explicit model. -/
def hIsStructKind : HVal → Bool
  | .hstruct _ => true
  | .htime _ => true
  | _ => false

/-- Go `Kind() == Ptr && Elem().Kind() == Struct` in the address-explicit
model: a non-nil pointer whose cell holds a struct-kind value. -/
def hIsPtrStructKind (h : Heap) : HVal → Bool
  | .hptr a =>
    match h[a]? with
    | some (.cval (.hstruct _)) => true
    | some (.cval (.htime _)) => true
    | _ => false
  | _ => false

/-- Go `reflect.Kind() == reflect.Slice` in the address-explicit model. -/
def hIsSliceKind : HVal → Bool
  | .hslice _ => true
  | _ => false

/-- Sequencing helper for the address-explicit per-field loop. -/
def hConsRes (tags : List (String × String)) (v : HVal) :
    Option (Heap × Except String HFields) → Option (Heap × Except String HFields)
  | none => none
  | some (h2, .error e) => some (h2, .error e)
  | some (h2, .ok rest') => some (h2, .ok (.cons tags v rest'))

/-- Sequencing helper for the address-explicit slice element loop. -/
def hConsResL (v : HVal) :
    Option (Heap × Except String HList) → Option (Heap × Except String HList)
  | none => none
  | some (h2, .error e) => some (h2, .error e)
  | some (h2, .ok rest') => some (h2, .ok (.cons v rest'))

mutual
/-- Embeds `StructEncryptTag` / `StructDecryptTag` in the address-explicit
model: empty-key no-op, duplication (fresh cells), root pointer dereference
(reading the heap), struct shape check, per-field loop; a pointer root gets a
freshly allocated output cell (`output.Addr()`).  `none` covers fuel
exhaustion, dangling pointers and the Go panic on typed-nil pointer roots. -/
def hStructTag : Nat → Leaf → String → String → String → Heap → HVal →
    Option (Heap × HVal × Option String)
  | 0, _, _, _, _, _, _ => none
  | fuel + 1, leaf, key, tagName, tagVal, h, input =>
    if key = "" then some (h, input, none) else
    match hCopy fuel h input with
    | none => none
    | some (h1, c) =>
      match c with
      | .hstruct fs =>
        match hFieldsTag fuel leaf key tagName tagVal h1 fs with
        | none => none
        | some (h2, .error e) => some (h2, input, some e)
        | some (h2, .ok fs') => some (h2, .hstruct fs', none)
      | .hptr a =>
        match h1[a]? with
        | some (.cval (.hstruct fs)) =>
          match hFieldsTag fuel leaf key tagName tagVal h1 fs with
          | none => none
          | some (h2, .error e) => some (h2, input, some e)
          | some (h2, .ok fs') =>
            some (h2 ++ [.cval (.hstruct fs')], .hptr h2.length, none)
        | some (.cval (.htime t)) =>
          some (h1 ++ [.cval (.htime t)], .hptr h1.length, none)
        | some _ => some (h1, input, some "input is not a struct")
        | none => none
      | .htime t => some (h1, .htime t, none)
      | .hptrNil => none
      | _ => some (h1, input, some "input is not a struct")

/-- Embeds the per-field loop in the address-explicit model: tagged non-nil
pointer-to-string fields and pointer-to-struct fields are written back
through their cell (`output.Field(i).Elem().Set`), struct fields are
replaced by the recursion's result value, `time.Time`, `*time.Time`, nil
pointers and all other kinds are kept unchanged. -/
def hFieldsTag : Nat → Leaf → String → String → String → Heap → HFields →
    Option (Heap × Except String HFields)
  | 0, _, _, _, _, _, _ => none
  | _ + 1, _, _, _, _, h, .nil => some (h, .ok .nil)
  | fuel + 1, leaf, key, tagName, tagVal, h, .cons tags v rest =>
    match v with
    | .htime t =>
      hConsRes tags (.htime t) (hFieldsTag fuel leaf key tagName tagVal h rest)
    | .hstr s =>
      if tagGet tags tagName = tagVal then
        match leaf s key with
        | .error e => some (h, .error e)
        | .ok s' => hConsRes tags (.hstr s') (hFieldsTag fuel leaf key tagName tagVal h rest)
      else hConsRes tags (.hstr s) (hFieldsTag fuel leaf key tagName tagVal h rest)
    | .hptr a =>
      match h[a]? with
      | some (.cval (.htime _)) =>
        hConsRes tags (.hptr a) (hFieldsTag fuel leaf key tagName tagVal h rest)
      | some (.cval (.hstr s)) =>
        if tagGet tags tagName = tagVal then
          match leaf s key with
          | .error e => some (h, .error e)
          | .ok s' =>
            hConsRes tags (.hptr a)
              (hFieldsTag fuel leaf key tagName tagVal (h.set a (.cval (.hstr s'))) rest)
        else hConsRes tags (.hptr a) (hFieldsTag fuel leaf key tagName tagVal h rest)
      | some (.cval (.hstruct fs2)) =>
        match hStructTag fuel leaf key tagName tagVal h (.hstruct fs2) with
        | none => none
        | some (h2, _, some e) => some (h2, .error e)
        | some (h2, .hstruct fs2', none) =>
          hConsRes tags (.hptr a)
            (hFieldsTag fuel leaf key tagName tagVal (h2.set a (.cval (.hstruct fs2'))) rest)
        | some (_, _, none) => none
      | _ => hConsRes tags (.hptr a) (hFieldsTag fuel leaf key tagName tagVal h rest)
    | .hptrNil =>
      hConsRes tags .hptrNil (hFieldsTag fuel leaf key tagName tagVal h rest)
    | .hstruct fs2 =>
      match hStructTag fuel leaf key tagName tagVal h (.hstruct fs2) with
      | none => none
      | some (h2, _, some e) => some (h2, .error e)
      | some (h2, v', none) =>
        hConsRes tags v' (hFieldsTag fuel leaf key tagName tagVal h2 rest)
    | .hint n =>
      hConsRes tags (.hint n) (hFieldsTag fuel leaf key tagName tagVal h rest)
    | .hbool b =>
      hConsRes tags (.hbool b) (hFieldsTag fuel leaf key tagName tagVal h rest)
    | .hslice a =>
      hConsRes tags (.hslice a) (hFieldsTag fuel leaf key tagName tagVal h rest)

/-- Embeds the slice element loop in the address-explicit model: struct-kind
elements and non-nil pointers to struct-kind targets go through the struct
transform (the pointer itself is passed, as in `item.Interface()`), other
elements are kept. -/
def hSliceElems : Nat → Leaf → String → String → String → Heap → HList →
    Option (Heap × Except String HList)
  | 0, _, _, _, _, _, _ => none
  | _ + 1, _, _, _, _, h, .nil => some (h, .ok .nil)
  | fuel + 1, leaf, key, tagName, tagVal, h, .cons item rest =>
    if hIsStructKind item || hIsPtrStructKind h item then
      match hStructTag fuel leaf key tagName tagVal h item with
      | none => none
      | some (h2, _, some e) => some (h2, .error e)
      | some (h2, item', none) =>
        hConsResL item' (hSliceElems fuel leaf key tagName tagVal h2 rest)
    else hConsResL item (hSliceElems fuel leaf key tagName tagVal h rest)
end

/-- Embeds `StructSliceEncryptTag` / `StructSliceDecryptTag` in the
address-explicit model: empty-key no-op, duplication, slice shape check,
element loop, write-back of the transformed elements into the (fresh)
backing cell; on an element error the original input is returned with the
error (the partially processed fresh backing is discarded). -/
def hSliceTag (fuel : Nat) (leaf : Leaf) (key tagName tagVal : String)
    (h : Heap) (input : HVal) : Option (Heap × HVal × Option String) :=
  match fuel with
  | 0 => none
  | fuel + 1 =>
    if key = "" then some (h, input, none) else
    match hCopy fuel h input with
    | none => none
    | some (h1, c) =>
      match c with
      | .hslice a =>
        match h1[a]? with
        | some (.carr xs) =>
          match hSliceElems fuel leaf key tagName tagVal h1 xs with
          | none => none
          | some (h2, .error e) => some (h2, input, some e)
          | some (h2, .ok xs') => some (h2.set a (.carr xs'), .hslice a, none)
        | _ => none
      | _ => some (h1, input, some "input is not a slice")

/-- Embeds `InterfaceEncryptTag` / `InterfaceDecryptTag` in the
address-explicit model: dispatch on the root kind (consulting the heap for
pointer roots), with pass-through for every other root shape. -/
def hInterfaceTag (fuel : Nat) (leaf : Leaf) (key tagName tagVal : String)
    (h : Heap) (input : HVal) : Option (Heap × HVal × Option String) :=
  match fuel with
  | 0 => none
  | fuel + 1 =>
    if key = "" then some (h, input, none) else
    if hIsStructKind input || hIsPtrStructKind h input then
      match hStructTag fuel leaf key tagName tagVal h input with
      | none => none
      | some (h2, _, some e) => some (h2, input, some e)
      | some (h2, v', none) => some (h2, v', none)
    else if hIsSliceKind input then
      match hSliceTag fuel leaf key tagName tagVal h input with
      | none => none
      | some (h2, _, some e) => some (h2, input, some e)
      | some (h2, v', none) => some (h2, v', none)
    else some (h, input, none)

mutual
/-- Every address occurring in the value is at least `n`. -/
def addrsGE : Nat → HVal → Bool
  | n, .hptr a => decide (n ≤ a)
  | n, .hslice a => decide (n ≤ a)
  | n, .hstruct fs => fieldsAddrsGE n fs
  | _, _ => true

/-- Every address occurring in the field list is at least `n`. -/
def fieldsAddrsGE : Nat → HFields → Bool
  | _, .nil => true
  | n, .cons _ v rest => addrsGE n v && fieldsAddrsGE n rest

/-- Every address occurring in the element list is at least `n`. -/
def listAddrsGE : Nat → HList → Bool
  | _, .nil => true
  | n, .cons v rest => addrsGE n v && listAddrsGE n rest
end

/-- Every address occurring in the cell is at least `n`. -/
def cellAddrsGE : Nat → HCell → Bool
  | n, .cval v => addrsGE n v
  | n, .carr xs => listAddrsGE n xs

/-- Every cell at an address `≥ n` only mentions addresses `≥ n` — the part
of the heap above the allocation boundary `n` is closed. -/
def ClosedAbove (n : Nat) (h : Heap) : Prop :=
  ∀ a c, n ≤ a → h[a]? = some c → cellAddrsGE n c = true

/-- The heap evolves without touching cells below the boundary `n`: the
prefix is preserved, the heap only grows, and the region above `n` stays
closed. -/
def Evolves (n : Nat) (h h' : Heap) : Prop :=
  (∀ b, b < n → h'[b]? = h[b]?) ∧ h.length ≤ h'.length ∧ ClosedAbove n h'

/-- Sample heap for the frame witness: one string cell. -/
def hHeap0 : Heap := [.cval (.hstr "alice")]

/-- Sample input for the frame witness: a record whose tagged `*string`
field points at cell 0 of `hHeap0`. -/
def hIn0 : HVal := .hstruct (.cons [("enc", "x")] (.hptr 0) .nil)

/-- Heap after transforming `hIn0` on `hHeap0` with `leafMark`: the original
cell is untouched, the fresh copy cell holds the marked string. -/
def hHeapOut : Heap := [.cval (.hstr "alice"), .cval (.hstr "alice!")]

/-- Result value of the frame witness run: the duplicate points at the fresh
cell. -/
def hOut0 : HVal := .hstruct (.cons [("enc", "x")] (.hptr 1) .nil)

/-- C4: with the empty string as key, every transform entry point — struct,
slice and interface, typed and untyped alike, in either direction (the leaf
cipher is universally quantified, so even an always-failing cipher yields the
nil error: no cipher call is observable) — returns its input unchanged with a
nil error, for inputs of every shape; in the address-explicit model the heap
is returned untouched, so no duplication (no allocation) occurs either. -/
theorem emptyKey_noop (leaf : Leaf) (tagName tagVal : String) (input : Val)
    (fuel : Nat) (hp : Heap) (hinput : HVal) :
    structTagTransform leaf "" tagName tagVal input = some (input, none) ∧
    structSliceTagTransform leaf "" tagName tagVal input = some (input, none) ∧
    interfaceTagTransform leaf "" tagName tagVal input = some (input, none) ∧
    structTagTransformI leaf "" tagName tagVal input = some (input, none) ∧
    structSliceTagTransformI leaf "" tagName tagVal input = some (input, none) ∧
    interfaceTagTransformI leaf "" tagName tagVal input = some (input, none) ∧
    hStructTag (fuel + 1) leaf "" tagName tagVal hp hinput = some (hp, hinput, none) ∧
    hSliceTag (fuel + 1) leaf "" tagName tagVal hp hinput = some (hp, hinput, none) ∧
    hInterfaceTag (fuel + 1) leaf "" tagName tagVal hp hinput = some (hp, hinput, none) := by
  refine ⟨?_, ?_, ?_, ?_, ?_, ?_, ?_, ?_, ?_⟩ <;>
    simp [structTagTransform, structSliceTagTransform, interfaceTagTransform,
      structTagTransformI, structSliceTagTransformI, interfaceTagTransformI,
      hStructTag, hSliceTag, hInterfaceTag]

/-- C9: over any sequence of `SetKeyEncrypt` calls starting from the nil
`keyEncrypt` cell, the stored key is the argument of the first call — later
calls are silently ignored — including when the first argument is the empty
string. -/
theorem setKeyEncrypt_firstWriteWins (k : String) (ks : List String) :
    (k :: ks).foldl (fun st k2 => SetKeyEncrypt k2 st) none = some k := by
  have h : ∀ l : List String,
      l.foldl (fun st k2 => SetKeyEncrypt k2 st) (some k) = some k := by
    intro l
    induction l with
    | nil => rfl
    | cons a l ih => simpa [SetKeyEncrypt] using ih
  simpa [SetKeyEncrypt] using h ks

/-- C6: a `time.Time` field and a `*time.Time` field (nil or not), whatever
its struct tags, is skipped by the per-field loop — it is kept identically in
the output and the traversal outcome is exactly that of the remaining fields,
for every leaf cipher (hence for both the encrypt and decrypt directions) —
so no cipher call and no descent happens for it. -/
theorem timeFields_skipped (leaf : Leaf) (key tagName tagVal : String)
    (tags : List (String × String)) (t : Nat) (ot : Option Nat) (rest : Fields) :
    fieldsTagTransform leaf key tagName tagVal (.cons tags (.vtime t) rest)
      = consRes tags (.vtime t) (fieldsTagTransform leaf key tagName tagVal rest) ∧
    fieldsTagTransform leaf key tagName tagVal (.cons tags (.vptrTime ot) rest)
      = consRes tags (.vptrTime ot) (fieldsTagTransform leaf key tagName tagVal rest) := by
  constructor <;> simp [fieldsTagTransform]

/-- C10: a nil-pointer field (nil `*string`, nil `*time.Time`, nil pointer to
struct), whatever its struct tags, is skipped by the per-field loop without
being dereferenced: it is kept identically (still nil) in the output and the
outcome is exactly that of the remaining fields, for every leaf cipher (so no
cipher call, no error and no panic arises from it, in either direction). -/
theorem nilPtrFields_skipped (leaf : Leaf) (key tagName tagVal : String)
    (tags : List (String × String)) (rest : Fields) :
    fieldsTagTransform leaf key tagName tagVal (.cons tags (.vptrStr none) rest)
      = consRes tags (.vptrStr none) (fieldsTagTransform leaf key tagName tagVal rest) ∧
    fieldsTagTransform leaf key tagName tagVal (.cons tags .vptrStructNil rest)
      = consRes tags .vptrStructNil (fieldsTagTransform leaf key tagName tagVal rest) ∧
    fieldsTagTransform leaf key tagName tagVal (.cons tags (.vptrTime none) rest)
      = consRes tags (.vptrTime none) (fieldsTagTransform leaf key tagName tagVal rest) := by
  refine ⟨?_, ?_, ?_⟩ <;> simp [fieldsTagTransform]

/-- C1: whenever a transform entry point (struct, slice or interface; either
direction, since the leaf cipher is universally quantified) returns a non-nil
error — in particular whenever the leaf cipher fails on a qualifying field —
the returned value is the caller's original input, so no partially
transformed value is ever handed back. -/
theorem error_returnsOriginal (leaf : Leaf) (key tagName tagVal : String)
    (input r : Val) (e : String) :
    (structTagTransform leaf key tagName tagVal input = some (r, some e) → r = input) ∧
    (structSliceTagTransform leaf key tagName tagVal input = some (r, some e) → r = input) ∧
    (interfaceTagTransform leaf key tagName tagVal input = some (r, some e) → r = input) := by
  refine ⟨fun h => ?_, fun h => ?_, fun h => ?_⟩
  · unfold structTagTransform at h
    split at h
    · simp at h
    · split at h <;> (try split at h) <;> simp_all
  · unfold structSliceTagTransform at h
    split at h
    · simp at h
    · split at h <;> (try split at h) <;> simp_all
  · unfold interfaceTagTransform at h
    split at h
    · simp at h
    · split at h
      · split at h <;> simp_all
      · split at h
        · split at h <;> simp_all
        · simp at h

/-- C1 witness: a failing leaf cipher on a tagged field makes the struct
entry point return the original record together with the cipher's error. -/
theorem error_returnsOriginal_witness :
    structTagTransform leafFail "k" "enc" "x" sampleStruct
      = some (sampleStruct, some "boom") ∧ sampleStruct = sampleStruct :=
  ⟨by simp [structTagTransform, fieldsTagTransform, tagGet, leafFail, sampleStruct, Copy, consRes],
   (error_returnsOriginal leafFail "k" "enc" "x" sampleStruct sampleStruct "boom").1
     (by simp [structTagTransform, fieldsTagTransform, tagGet, leafFail, sampleStruct, Copy, consRes])⟩

/-- C3 counterexample: with a non-empty key, `InterfaceEncryptTag` on an
`int` root — whose root, with no reference to dereference, is neither a
record nor a sequence — returns the input with a NIL error instead of the
unsupported-shape error the claim requires of every transform entry point. -/
theorem interface_nonStructRoot_noError :
    interfaceTagTransform leafId "k" "enc" "x" (.vint 5) = some (.vint 5, none) := by
  simp [interfaceTagTransform, isStructKind, isPtrStructKind, isSliceKind]

/-- C3 (amended): with a non-empty key, the `Struct` entry points return the
original input with the "input is not a struct" error on every root that is
not of struct kind, not a non-nil pointer to struct kind, and not a typed-nil
pointer (on which they panic instead); the `StructSlice` entry points return
the original input with the "input is not a slice" error on every non-slice
root; but the `Interface` entry points return the original input with a NIL
error on every root that is neither of struct kind, nor a non-nil pointer to
struct kind, nor a slice. -/
theorem shapeCheck_behavior (leaf : Leaf) (key tagName tagVal : String) (input : Val)
    (hkey : key ≠ "") :
    ((isStructKind input || isPtrStructKind input || isNilPtr input) = false →
      structTagTransform leaf key tagName tagVal input
        = some (input, some "input is not a struct")) ∧
    (isSliceKind input = false →
      structSliceTagTransform leaf key tagName tagVal input
        = some (input, some "input is not a slice")) ∧
    ((isStructKind input || isPtrStructKind input || isSliceKind input) = false →
      interfaceTagTransform leaf key tagName tagVal input = some (input, none)) := by
  refine ⟨fun h => ?_, fun h => ?_, fun h => ?_⟩
  · cases input <;>
      simp_all [structTagTransform, isStructKind, isPtrStructKind, isNilPtr, Copy, hkey]
    · rename_i o; cases o <;> simp_all [structTagTransform, Copy]
    · rename_i o; cases o <;> simp_all [structTagTransform, Copy]
  · cases input <;>
      simp_all [structSliceTagTransform, isSliceKind, Copy, hkey]
  · cases input <;>
      simp_all [interfaceTagTransform, isStructKind, isPtrStructKind, isSliceKind, hkey]

/-- C3 witness: concrete behavior of the three typed entry points on a string
root with a non-empty key. -/
theorem shapeCheck_behavior_witness :
    structTagTransform leafId "k" "enc" "x" (.vstr "q")
      = some (.vstr "q", some "input is not a struct") ∧
    structSliceTagTransform leafId "k" "enc" "x" (.vstr "q")
      = some (.vstr "q", some "input is not a slice") ∧
    interfaceTagTransform leafId "k" "enc" "x" (.vstr "q") = some (.vstr "q", none) :=
  ⟨(shapeCheck_behavior leafId "k" "enc" "x" (.vstr "q") (by decide)).1 (by decide),
   (shapeCheck_behavior leafId "k" "enc" "x" (.vstr "q") (by decide)).2.1 (by decide),
   (shapeCheck_behavior leafId "k" "enc" "x" (.vstr "q") (by decide)).2.2 (by decide)⟩

/-- Helper: the typed and untyped per-field loops agree (strong induction on
the size of the field list, because the recursion into nested structs goes
through the struct wrapper). -/
theorem fieldsTagTransform_eq_untyped_aux (leaf : Leaf) (key tagName tagVal : String) :
    ∀ n (fs : Fields), sizeOf fs ≤ n →
      fieldsTagTransform leaf key tagName tagVal fs
        = fieldsTagTransformI leaf key tagName tagVal fs := by
  intro n
  induction n with
  | zero => intro fs hfs; exfalso; cases fs <;> (simp at hfs; try omega)
  | succ n ih =>
    intro fs hfs
    cases fs with
    | nil => simp [fieldsTagTransform, fieldsTagTransformI]
    | cons tags v rest =>
      have hrest : fieldsTagTransform leaf key tagName tagVal rest
          = fieldsTagTransformI leaf key tagName tagVal rest := by
        apply ih; simp at hfs; omega
      cases v with
      | vstruct fs2 =>
        have h2 := ih fs2 (by simp at hfs; omega)
        simp [fieldsTagTransform, fieldsTagTransformI, structTagTransform,
          structTagTransformI, Copy, h2, hrest]
      | vptrStruct fs2 =>
        have h2 := ih fs2 (by simp at hfs; omega)
        simp [fieldsTagTransform, fieldsTagTransformI, structTagTransform,
          structTagTransformI, Copy, h2, hrest]
      | vptrStr o => cases o <;> simp [fieldsTagTransform, fieldsTagTransformI, hrest]
      | vptrTime o => cases o <;> simp [fieldsTagTransform, fieldsTagTransformI, hrest]
      | _ => simp [fieldsTagTransform, fieldsTagTransformI, hrest]

/-- Helper: the typed and untyped struct transforms agree. -/
theorem structTagTransform_eq_untyped (leaf : Leaf) (key tagName tagVal : String)
    (input : Val) :
    structTagTransform leaf key tagName tagVal input
      = structTagTransformI leaf key tagName tagVal input := by
  have hf : ∀ fs : Fields, fieldsTagTransform leaf key tagName tagVal fs
      = fieldsTagTransformI leaf key tagName tagVal fs :=
    fun fs => fieldsTagTransform_eq_untyped_aux leaf key tagName tagVal (sizeOf fs) fs le_rfl
  cases input <;> simp [structTagTransform, structTagTransformI, Copy, hf]

/-- Helper: the typed and untyped slice element loops agree (the untyped one
dispatches its struct elements to the typed struct transform, exactly like
the typed one). -/
theorem sliceElemsTransform_eq_untyped (leaf : Leaf) (key tagName tagVal : String) :
    ∀ xs : VList, sliceElemsTransform leaf key tagName tagVal xs
      = sliceElemsTransformI leaf key tagName tagVal xs := by
  have H : ∀ n (xs : VList), sizeOf xs ≤ n →
      sliceElemsTransform leaf key tagName tagVal xs
        = sliceElemsTransformI leaf key tagName tagVal xs := by
    intro n
    induction n with
    | zero => intro xs h; exfalso; cases xs <;> (simp at h; try omega)
    | succ n ih =>
      intro xs h
      cases xs with
      | nil => simp [sliceElemsTransform, sliceElemsTransformI]
      | cons item rest =>
        have hrest := ih rest (by simp at h; omega)
        simp [sliceElemsTransform, sliceElemsTransformI, hrest]
  exact fun xs => H (sizeOf xs) xs le_rfl

/-- Helper: the typed and untyped slice transforms agree. -/
theorem structSliceTagTransform_eq_untyped (leaf : Leaf) (key tagName tagVal : String)
    (input : Val) :
    structSliceTagTransform leaf key tagName tagVal input
      = structSliceTagTransformI leaf key tagName tagVal input := by
  cases input <;> simp [structSliceTagTransform, structSliceTagTransformI, Copy,
    sliceElemsTransform_eq_untyped]

/-- C5: the typed and the untyped entry points have identical semantics: on
every input, key, tag name and tag value they produce the same result value
and the same error outcome — for the interface, struct and slice entry
points alike, and for every leaf cipher, hence for both the encrypt and the
decrypt direction. -/
theorem typed_untyped_equiv (leaf : Leaf) (key tagName tagVal : String) (input : Val) :
    interfaceTagTransform leaf key tagName tagVal input
      = interfaceTagTransformI leaf key tagName tagVal input ∧
    structTagTransform leaf key tagName tagVal input
      = structTagTransformI leaf key tagName tagVal input ∧
    structSliceTagTransform leaf key tagName tagVal input
      = structSliceTagTransformI leaf key tagName tagVal input := by
  refine ⟨?_, structTagTransform_eq_untyped leaf key tagName tagVal input,
    structSliceTagTransform_eq_untyped leaf key tagName tagVal input⟩
  unfold interfaceTagTransform interfaceTagTransformI
  rw [structTagTransform_eq_untyped, structSliceTagTransform_eq_untyped]

/-- Helper: elementwise specification of the slice element loop — on success
the output list has the same length, struct-kind and pointer-to-struct-kind
elements are the struct transform of the corresponding input element, and
every other element is returned untouched. -/
theorem sliceElems_spec_aux (leaf : Leaf) (key tagName tagVal : String) :
    ∀ n (xs ys : VList), sizeOf xs ≤ n →
      sliceElemsTransform leaf key tagName tagVal xs = some (.ok ys) →
      vlen ys = vlen xs ∧
      (∀ i x y, vget xs i = some x → vget ys i = some y →
        (((isStructKind x || isPtrStructKind x) = true →
          structTagTransform leaf key tagName tagVal x = some (y, none)) ∧
         ((isStructKind x || isPtrStructKind x) = false → y = x))) := by
  intro n
  induction n with
  | zero => intro xs ys h _; exfalso; cases xs <;> (simp at h; try omega)
  | succ n ih =>
    intro xs ys hsz h
    cases xs with
    | nil =>
      simp [sliceElemsTransform] at h
      subst h
      exact ⟨rfl, fun i x y hx _ => by simp [vget] at hx⟩
    | cons item rest =>
      have hsz' : sizeOf rest ≤ n := by simp at hsz; omega
      rw [sliceElemsTransform] at h
      by_cases hk : (isStructKind item || isPtrStructKind item) = true
      · rw [if_pos hk] at h
        cases hst : structTagTransform leaf key tagName tagVal item with
        | none => rw [hst] at h; simp at h
        | some p =>
          obtain ⟨item', err⟩ := p
          cases err with
          | some e => rw [hst] at h; simp at h
          | none =>
            rw [hst] at h
            cases hrest : sliceElemsTransform leaf key tagName tagVal rest with
            | none => rw [hrest] at h; simp [consResL] at h
            | some r =>
              cases r with
              | error e => rw [hrest] at h; simp [consResL] at h
              | ok ys' =>
                rw [hrest] at h
                simp [consResL] at h
                subst h
                obtain ⟨hlen, helem⟩ := ih rest ys' hsz' hrest
                refine ⟨by simp [vlen, hlen], ?_⟩
                intro i x y hx hy
                cases i with
                | zero =>
                  simp [vget] at hx hy
                  subst hx; subst hy
                  exact ⟨fun _ => hst, fun hf => absurd hk (by simp [hf])⟩
                | succ i =>
                  simp [vget] at hx hy
                  exact helem i x y hx hy
      · rw [if_neg hk] at h
        cases hrest : sliceElemsTransform leaf key tagName tagVal rest with
        | none => rw [hrest] at h; simp [consResL] at h
        | some r =>
          cases r with
          | error e => rw [hrest] at h; simp [consResL] at h
          | ok ys' =>
            rw [hrest] at h
            simp [consResL] at h
            subst h
            obtain ⟨hlen, helem⟩ := ih rest ys' hsz' hrest
            refine ⟨by simp [vlen, hlen], ?_⟩
            intro i x y hx hy
            cases i with
            | zero =>
              simp [vget] at hx hy
              subst hx; subst hy
              exact ⟨fun ht => absurd ht hk, fun _ => rfl⟩
            | succ i =>
              simp [vget] at hx hy
              exact helem i x y hx hy

/-- C7: with a non-empty key, a successful slice transform preserves the
length (and hence the order) of the slice, and relates input and output
elementwise: a struct-kind element, or a non-nil pointer to a struct-kind
target, is replaced by the result of the struct traversal on that element;
every element of any other kind is left untouched. -/
theorem sliceTransform_elementwise (leaf : Leaf) (key tagName tagVal : String)
    (xs ys : VList) (hkey : key ≠ "")
    (h : structSliceTagTransform leaf key tagName tagVal (.vslice xs)
      = some (.vslice ys, none)) :
    vlen ys = vlen xs ∧
    ∀ i x y, vget xs i = some x → vget ys i = some y →
      (((isStructKind x || isPtrStructKind x) = true →
        structTagTransform leaf key tagName tagVal x = some (y, none)) ∧
       ((isStructKind x || isPtrStructKind x) = false → y = x)) := by
  unfold structSliceTagTransform at h
  rw [if_neg hkey] at h
  simp only [Copy] at h
  cases hse : sliceElemsTransform leaf key tagName tagVal xs with
  | none => rw [hse] at h; simp at h
  | some r =>
    cases r with
    | error e => rw [hse] at h; simp at h
    | ok xs' =>
      rw [hse] at h
      simp at h
      subst h
      exact sliceElems_spec_aux leaf key tagName tagVal (sizeOf xs) xs _ le_rfl hse

/-- C7 witness: a slice holding one tagged record and one int, transformed
with a marking cipher: the record field is marked, the int passes through. -/
theorem sliceTransform_elementwise_witness :
    vlen sampleSliceOut = vlen sampleSlice ∧
    ∀ i x y, vget sampleSlice i = some x → vget sampleSliceOut i = some y →
      (((isStructKind x || isPtrStructKind x) = true →
        structTagTransform leafMark "k" "enc" "x" x = some (y, none)) ∧
       ((isStructKind x || isPtrStructKind x) = false → y = x)) :=
  sliceTransform_elementwise leafMark "k" "enc" "x" sampleSlice sampleSliceOut
    (by decide)
    (by simp [structSliceTagTransform, sliceElemsTransform, structTagTransform,
      fieldsTagTransform, tagGet, leafMark, sampleSlice, sampleSliceOut, Copy,
      consRes, consResL, isStructKind, isPtrStructKind])

/-- Helper: inversion of the field-loop sequencing combinator on success. -/
theorem consRes_eq_ok (tags : List (String × String)) (v : Val)
    (r : Option (Except String Fields)) (out : Fields) :
    consRes tags v r = some (.ok out) ↔
      ∃ rest', r = some (.ok rest') ∧ out = Fields.cons tags v rest' := by
  cases r with
  | none => simp [consRes]
  | some x =>
    cases x with
    | error e => simp [consRes]
    | ok rest' => simp [consRes, eq_comm]

/-- Helper: round-trip of the per-field loop — if the leaf ciphers invert
each other then running the loop with `dec` on the output of the loop with
`enc` restores the original field list (strong induction on size). -/
theorem fieldsRoundTrip_aux (enc dec : Leaf) (key tagName tagVal : String)
    (hrt : ∀ s c k2, enc s k2 = .ok c → dec c k2 = .ok s) (hkey : key ≠ "") :
    ∀ n (fs fs' : Fields), sizeOf fs ≤ n →
      fieldsTagTransform enc key tagName tagVal fs = some (.ok fs') →
      fieldsTagTransform dec key tagName tagVal fs' = some (.ok fs) := by
  intro n
  induction n with
  | zero => intro fs fs' h _; exfalso; cases fs <;> (simp at h; try omega)
  | succ n ih =>
    intro fs fs' hsz henc
    cases fs with
    | nil =>
      simp [fieldsTagTransform] at henc
      subst henc
      simp [fieldsTagTransform]
    | cons tags v rest =>
      have hszr : sizeOf rest ≤ n := by simp at hsz; omega
      cases v with
      | vtime t =>
        simp only [fieldsTagTransform] at henc
        rw [consRes_eq_ok] at henc
        obtain ⟨rest', hrest, rfl⟩ := henc
        simp only [fieldsTagTransform]
        rw [consRes_eq_ok]
        exact ⟨rest, ih rest rest' hszr hrest, rfl⟩
      | vptrTime ot =>
        simp only [fieldsTagTransform] at henc
        rw [consRes_eq_ok] at henc
        obtain ⟨rest', hrest, rfl⟩ := henc
        simp only [fieldsTagTransform]
        rw [consRes_eq_ok]
        exact ⟨rest, ih rest rest' hszr hrest, rfl⟩
      | vint m =>
        simp only [fieldsTagTransform] at henc
        rw [consRes_eq_ok] at henc
        obtain ⟨rest', hrest, rfl⟩ := henc
        simp only [fieldsTagTransform]
        rw [consRes_eq_ok]
        exact ⟨rest, ih rest rest' hszr hrest, rfl⟩
      | vbool b =>
        simp only [fieldsTagTransform] at henc
        rw [consRes_eq_ok] at henc
        obtain ⟨rest', hrest, rfl⟩ := henc
        simp only [fieldsTagTransform]
        rw [consRes_eq_ok]
        exact ⟨rest, ih rest rest' hszr hrest, rfl⟩
      | vslice xs =>
        simp only [fieldsTagTransform] at henc
        rw [consRes_eq_ok] at henc
        obtain ⟨rest', hrest, rfl⟩ := henc
        simp only [fieldsTagTransform]
        rw [consRes_eq_ok]
        exact ⟨rest, ih rest rest' hszr hrest, rfl⟩
      | vptrStructNil =>
        simp only [fieldsTagTransform] at henc
        rw [consRes_eq_ok] at henc
        obtain ⟨rest', hrest, rfl⟩ := henc
        simp only [fieldsTagTransform]
        rw [consRes_eq_ok]
        exact ⟨rest, ih rest rest' hszr hrest, rfl⟩
      | vstr s =>
        simp only [fieldsTagTransform] at henc
        by_cases htag : tagGet tags tagName = tagVal
        · rw [if_pos htag] at henc
          cases hleafE : enc s key with
          | error e => rw [hleafE] at henc; simp at henc
          | ok s' =>
            rw [hleafE] at henc
            rw [consRes_eq_ok] at henc
            obtain ⟨rest', hrest, rfl⟩ := henc
            simp only [fieldsTagTransform]
            rw [if_pos htag, hrt s s' key hleafE, consRes_eq_ok]
            exact ⟨rest, ih rest rest' hszr hrest, rfl⟩
        · rw [if_neg htag] at henc
          rw [consRes_eq_ok] at henc
          obtain ⟨rest', hrest, rfl⟩ := henc
          simp only [fieldsTagTransform]
          rw [if_neg htag, consRes_eq_ok]
          exact ⟨rest, ih rest rest' hszr hrest, rfl⟩
      | vptrStr o =>
        cases o with
        | none =>
          simp only [fieldsTagTransform] at henc
          rw [consRes_eq_ok] at henc
          obtain ⟨rest', hrest, rfl⟩ := henc
          simp only [fieldsTagTransform]
          rw [consRes_eq_ok]
          exact ⟨rest, ih rest rest' hszr hrest, rfl⟩
        | some s =>
          simp only [fieldsTagTransform] at henc
          by_cases htag : tagGet tags tagName = tagVal
          · rw [if_pos htag] at henc
            cases hleafE : enc s key with
            | error e => rw [hleafE] at henc; simp at henc
            | ok s' =>
              rw [hleafE] at henc
              rw [consRes_eq_ok] at henc
              obtain ⟨rest', hrest, rfl⟩ := henc
              simp only [fieldsTagTransform]
              rw [if_pos htag, hrt s s' key hleafE, consRes_eq_ok]
              exact ⟨rest, ih rest rest' hszr hrest, rfl⟩
          · rw [if_neg htag] at henc
            rw [consRes_eq_ok] at henc
            obtain ⟨rest', hrest, rfl⟩ := henc
            simp only [fieldsTagTransform]
            rw [if_neg htag, consRes_eq_ok]
            exact ⟨rest, ih rest rest' hszr hrest, rfl⟩
      | vstruct fs2 =>
        have hsz2 : sizeOf fs2 ≤ n := by simp at hsz; omega
        simp only [fieldsTagTransform, structTagTransform, Copy, if_neg hkey] at henc
        cases hf2 : fieldsTagTransform enc key tagName tagVal fs2 with
        | none => rw [hf2] at henc; simp at henc
        | some r2 =>
          cases r2 with
          | error e => rw [hf2] at henc; simp at henc
          | ok fs2' =>
            rw [hf2] at henc
            simp only at henc
            rw [consRes_eq_ok] at henc
            obtain ⟨rest', hrest, rfl⟩ := henc
            simp only [fieldsTagTransform, structTagTransform, Copy, if_neg hkey]
            rw [ih fs2 fs2' hsz2 hf2]
            simp only
            rw [consRes_eq_ok]
            exact ⟨rest, ih rest rest' hszr hrest, rfl⟩
      | vptrStruct fs2 =>
        have hsz2 : sizeOf fs2 ≤ n := by simp at hsz; omega
        simp only [fieldsTagTransform, structTagTransform, Copy, if_neg hkey] at henc
        cases hf2 : fieldsTagTransform enc key tagName tagVal fs2 with
        | none => rw [hf2] at henc; simp at henc
        | some r2 =>
          cases r2 with
          | error e => rw [hf2] at henc; simp at henc
          | ok fs2' =>
            rw [hf2] at henc
            simp only at henc
            rw [consRes_eq_ok] at henc
            obtain ⟨rest', hrest, rfl⟩ := henc
            simp only [fieldsTagTransform, structTagTransform, Copy, if_neg hkey]
            rw [ih fs2 fs2' hsz2 hf2]
            simp only
            rw [consRes_eq_ok]
            exact ⟨rest, ih rest rest' hszr hrest, rfl⟩

/-- C8: decrypting the successful result of encrypting (same key, same tag
name, same tag value) restores the original record exactly — the tagged
string field gets its original value back and every other field, tagged or
not, is equal to its value in the input — provided the external leaf ciphers
invert each other (`dec (enc s k) k = ok s` whenever `enc` succeeds). -/
theorem encryptDecrypt_roundTrip (enc dec : Leaf) (key tagName tagVal : String)
    (x y : Val)
    (hrt : ∀ s c k2, enc s k2 = .ok c → dec c k2 = .ok s)
    (hx : structTagTransform enc key tagName tagVal x = some (y, none)) :
    structTagTransform dec key tagName tagVal y = some (x, none) := by
  by_cases hkey : key = ""
  · subst hkey
    simp [structTagTransform] at hx ⊢
    simp [hx]
  · cases x with
    | vstruct fs =>
      simp only [structTagTransform, Copy, if_neg hkey] at hx ⊢
      cases hf : fieldsTagTransform enc key tagName tagVal fs with
      | none => rw [hf] at hx; simp at hx
      | some r =>
        cases r with
        | error e => rw [hf] at hx; simp at hx
        | ok fs' =>
          rw [hf] at hx
          simp at hx
          subst hx
          simp only [structTagTransform, Copy, if_neg hkey]
          rw [fieldsRoundTrip_aux enc dec key tagName tagVal hrt hkey (sizeOf fs) fs fs'
            le_rfl hf]
    | vptrStruct fs =>
      simp only [structTagTransform, Copy, if_neg hkey] at hx ⊢
      cases hf : fieldsTagTransform enc key tagName tagVal fs with
      | none => rw [hf] at hx; simp at hx
      | some r =>
        cases r with
        | error e => rw [hf] at hx; simp at hx
        | ok fs' =>
          rw [hf] at hx
          simp at hx
          subst hx
          simp only [structTagTransform, Copy, if_neg hkey]
          rw [fieldsRoundTrip_aux enc dec key tagName tagVal hrt hkey (sizeOf fs) fs fs'
            le_rfl hf]
    | vtime t =>
      simp only [structTagTransform, Copy, if_neg hkey] at hx ⊢
      simp at hx
      subst hx
      simp [structTagTransform, Copy, if_neg hkey]
    | vptrTime o =>
      cases o with
      | none => simp [structTagTransform, Copy, if_neg hkey] at hx
      | some t =>
        simp only [structTagTransform, Copy, if_neg hkey] at hx ⊢
        simp at hx
        subst hx
        simp [structTagTransform, Copy, if_neg hkey]
    | vstr s => simp [structTagTransform, Copy, if_neg hkey] at hx
    | vint m => simp [structTagTransform, Copy, if_neg hkey] at hx
    | vbool b => simp [structTagTransform, Copy, if_neg hkey] at hx
    | vptrStr o =>
      cases o with
      | none => simp [structTagTransform, Copy, if_neg hkey] at hx
      | some s => simp [structTagTransform, Copy, if_neg hkey] at hx
    | vptrStructNil => simp [structTagTransform, Copy, if_neg hkey] at hx
    | vslice xs => simp [structTagTransform, Copy, if_neg hkey] at hx

/-- C8 witness: the identity cipher inverts itself, and the round trip on a
sample record with one tagged string field restores the record. -/
theorem encryptDecrypt_roundTrip_witness :
    structTagTransform leafId "k" "enc" "x" sampleStruct = some (sampleStruct, none) :=
  encryptDecrypt_roundTrip leafId leafId "k" "enc" "x" sampleStruct sampleStruct
    (by intro s c k2 h; simp [leafId] at h ⊢; simp [h])
    (by simp [structTagTransform, fieldsTagTransform, tagGet, leafId, sampleStruct,
      Copy, consRes])

/-- Helper: the region above the current heap length is trivially closed. -/
theorem closedAbove_length (h : Heap) : ClosedAbove h.length h := by
  intro a c ha hc
  rw [List.getElem?_eq_none_iff.mpr ha] at hc
  exact absurd hc (by simp)

/-- Helper: heap evolution is reflexive on heaps whose upper region is
closed. -/
theorem evolves_refl {n : Nat} {h : Heap} (hc : ClosedAbove n h) : Evolves n h h :=
  ⟨fun _ _ => rfl, le_rfl, hc⟩

/-- Helper: heap evolution composes. -/
theorem evolves_trans {n : Nat} {h h' h'' : Heap}
    (h1 : Evolves n h h') (h2 : Evolves n h' h'') : Evolves n h h'' :=
  ⟨fun b hb => (h2.1 b hb).trans (h1.1 b hb), h1.2.1.trans h2.2.1, h2.2.2⟩

/-- Helper: writing a cell at an address above the boundary, with contents
above the boundary, is a heap evolution. -/
theorem evolves_set {n : Nat} {h : Heap} {a : Nat} {c : HCell}
    (hcl : ClosedAbove n h) (hna : n ≤ a) (hc : cellAddrsGE n c = true) :
    Evolves n h (h.set a c) := by
  refine ⟨fun b hb => List.getElem?_set_ne (by omega), by simp, ?_⟩
  intro b cb hb hget
  by_cases hba : a = b
  · subst hba
    by_cases hlt : a < h.length
    · rw [List.getElem?_set_eq hlt] at hget
      cases hget
      exact hc
    · rw [List.set_eq_of_length_le (by omega)] at hget
      exact hcl a cb hb hget
  · rw [List.getElem?_set_ne hba] at hget
    exact hcl b cb hb hget

/-- Helper: allocating a fresh cell with contents above the boundary is a
heap evolution (the boundary must not exceed the heap length). -/
theorem evolves_append {n : Nat} {h : Heap} {c : HCell}
    (hcl : ClosedAbove n h) (hlen : n ≤ h.length) (hc : cellAddrsGE n c = true) :
    Evolves n h (h ++ [c]) := by
  refine ⟨fun b hb => List.getElem?_append_left (by omega), by simp, ?_⟩
  intro b cb hb hget
  by_cases hlt : b < h.length
  · rw [List.getElem?_append_left hlt] at hget
    exact hcl b cb hb hget
  · rw [List.getElem?_append_right (by omega)] at hget
    cases hb2 : b - h.length with
    | zero => rw [hb2] at hget; cases hget; exact hc
    | succ m => rw [hb2] at hget; simp at hget

/-- Helper: frame property of the spec-modelled Duplication Engine — for any
boundary `n` not exceeding the heap length, with the upper region closed,
copying evolves the heap (the prefix below `n` is untouched) and the copy
mentions only addresses `≥ n` (it is disjoint from everything that existed
below the boundary). -/
theorem hCopy_frame : ∀ (fuel n : Nat),
    (∀ h v h' v', hCopy fuel h v = some (h', v') →
      n ≤ h.length → ClosedAbove n h →
      Evolves n h h' ∧ addrsGE n v' = true) ∧
    (∀ h fs h' fs', hCopyFields fuel h fs = some (h', fs') →
      n ≤ h.length → ClosedAbove n h →
      Evolves n h h' ∧ fieldsAddrsGE n fs' = true) ∧
    (∀ h xs h' xs', hCopyList fuel h xs = some (h', xs') →
      n ≤ h.length → ClosedAbove n h →
      Evolves n h h' ∧ listAddrsGE n xs' = true) := by
  intro fuel
  induction fuel with
  | zero =>
    refine fun n => ⟨?_, ?_, ?_⟩ <;> (intro h v h' v' heq; simp [hCopy, hCopyFields, hCopyList] at heq)
  | succ fuel ih =>
    intro n
    obtain ⟨ihv, ihf, ihl⟩ := ih n
    refine ⟨?_, ?_, ?_⟩
    · intro h v h' v' heq hlen hcl
      cases v with
      | hstr s => simp [hCopy] at heq; obtain ⟨rfl, rfl⟩ := heq; exact ⟨evolves_refl hcl, rfl⟩
      | hint m => simp [hCopy] at heq; obtain ⟨rfl, rfl⟩ := heq; exact ⟨evolves_refl hcl, rfl⟩
      | hbool b => simp [hCopy] at heq; obtain ⟨rfl, rfl⟩ := heq; exact ⟨evolves_refl hcl, rfl⟩
      | htime t => simp [hCopy] at heq; obtain ⟨rfl, rfl⟩ := heq; exact ⟨evolves_refl hcl, rfl⟩
      | hptrNil => simp [hCopy] at heq; obtain ⟨rfl, rfl⟩ := heq; exact ⟨evolves_refl hcl, rfl⟩
      | hstruct fs =>
        cases hf : hCopyFields fuel h fs with
        | none => simp [hCopy, hf] at heq
        | some p =>
          obtain ⟨h1, fs'⟩ := p
          simp only [hCopy, hf, Option.some.injEq, Prod.mk.injEq] at heq
          obtain ⟨rfl, rfl⟩ := heq
          obtain ⟨he, ha⟩ := ihf h fs h1 fs' hf hlen hcl
          exact ⟨he, by simpa [addrsGE] using ha⟩
      | hptr a =>
        cases hga : h[a]? with
        | none => simp [hCopy, hga] at heq
        | some cell =>
          cases cell with
          | carr xs => simp [hCopy, hga] at heq
          | cval cv =>
            cases hc2 : hCopy fuel h cv with
            | none => simp [hCopy, hga, hc2] at heq
            | some p =>
              obtain ⟨h1, cv'⟩ := p
              simp only [hCopy, hga, hc2, Option.some.injEq, Prod.mk.injEq] at heq
              obtain ⟨rfl, rfl⟩ := heq
              obtain ⟨he, ha⟩ := ihv h cv h1 cv' hc2 hlen hcl
              have hlen1 : n ≤ h1.length := hlen.trans he.2.1
              refine ⟨evolves_trans he (evolves_append he.2.2 hlen1 (by simpa [cellAddrsGE] using ha)), ?_⟩
              simp [addrsGE]
              omega
      | hslice a =>
        cases hga : h[a]? with
        | none => simp [hCopy, hga] at heq
        | some cell =>
          cases cell with
          | cval cv => simp [hCopy, hga] at heq
          | carr xs =>
            cases hc2 : hCopyList fuel h xs with
            | none => simp [hCopy, hga, hc2] at heq
            | some p =>
              obtain ⟨h1, xs'⟩ := p
              simp only [hCopy, hga, hc2, Option.some.injEq, Prod.mk.injEq] at heq
              obtain ⟨rfl, rfl⟩ := heq
              obtain ⟨he, ha⟩ := ihl h xs h1 xs' hc2 hlen hcl
              have hlen1 : n ≤ h1.length := hlen.trans he.2.1
              refine ⟨evolves_trans he (evolves_append he.2.2 hlen1 (by simpa [cellAddrsGE] using ha)), ?_⟩
              simp [addrsGE]
              omega
    · intro h fs h' fs' heq hlen hcl
      cases fs with
      | nil => simp [hCopyFields] at heq; obtain ⟨rfl, rfl⟩ := heq; exact ⟨evolves_refl hcl, rfl⟩
      | cons tags v rest =>
        cases hc1 : hCopy fuel h v with
        | none => simp [hCopyFields, hc1] at heq
        | some p =>
          obtain ⟨h1, v'⟩ := p
          cases hc2 : hCopyFields fuel h1 rest with
          | none => simp [hCopyFields, hc1, hc2] at heq
          | some q =>
            obtain ⟨h2, rest'⟩ := q
            simp only [hCopyFields, hc1, hc2, Option.some.injEq, Prod.mk.injEq] at heq
            obtain ⟨rfl, rfl⟩ := heq
            obtain ⟨he1, ha1⟩ := ihv h v h1 v' hc1 hlen hcl
            obtain ⟨he2, ha2⟩ := ihf h1 rest h2 rest' hc2 (hlen.trans he1.2.1) he1.2.2
            exact ⟨evolves_trans he1 he2, by simp [fieldsAddrsGE, ha1, ha2]⟩
    · intro h xs h' xs' heq hlen hcl
      cases xs with
      | nil => simp [hCopyList] at heq; obtain ⟨rfl, rfl⟩ := heq; exact ⟨evolves_refl hcl, rfl⟩
      | cons v rest =>
        cases hc1 : hCopy fuel h v with
        | none => simp [hCopyList, hc1] at heq
        | some p =>
          obtain ⟨h1, v'⟩ := p
          cases hc2 : hCopyList fuel h1 rest with
          | none => simp [hCopyList, hc1, hc2] at heq
          | some q =>
            obtain ⟨h2, rest'⟩ := q
            simp only [hCopyList, hc1, hc2, Option.some.injEq, Prod.mk.injEq] at heq
            obtain ⟨rfl, rfl⟩ := heq
            obtain ⟨he1, ha1⟩ := ihv h v h1 v' hc1 hlen hcl
            obtain ⟨he2, ha2⟩ := ihl h1 rest h2 rest' hc2 (hlen.trans he1.2.1) he1.2.2
            exact ⟨evolves_trans he1 he2, by simp [listAddrsGE, ha1, ha2]⟩

/-- Helper: frame property of the field-loop sequencing combinator. -/
theorem hConsRes_frame {n : Nat} {tags : List (String × String)} {v : HVal}
    {r : Option (Heap × Except String HFields)} {h1 h' : Heap}
    {out : Except String HFields}
    (hv : addrsGE n v = true)
    (hr : ∀ h2 o, r = some (h2, o) →
      Evolves n h1 h2 ∧ ∀ fs', o = .ok fs' → fieldsAddrsGE n fs' = true)
    (heq : hConsRes tags v r = some (h', out)) :
    Evolves n h1 h' ∧ ∀ fs', out = .ok fs' → fieldsAddrsGE n fs' = true := by
  cases r with
  | none => simp [hConsRes] at heq
  | some p =>
    obtain ⟨h2, o⟩ := p
    obtain ⟨he, ho⟩ := hr h2 o rfl
    cases o with
    | error e =>
      simp only [hConsRes, Option.some.injEq, Prod.mk.injEq] at heq
      obtain ⟨rfl, rfl⟩ := heq
      exact ⟨he, fun fs' hfs' => by cases hfs'⟩
    | ok rest' =>
      simp only [hConsRes, Option.some.injEq, Prod.mk.injEq] at heq
      obtain ⟨rfl, rfl⟩ := heq
      refine ⟨he, fun fs' hfs' => ?_⟩
      cases hfs'
      simp [fieldsAddrsGE, hv, ho rest' rfl]

/-- Helper: frame property of the slice element loop sequencing combinator. -/
theorem hConsResL_frame {n : Nat} {v : HVal}
    {r : Option (Heap × Except String HList)} {h1 h' : Heap}
    {out : Except String HList}
    (hv : addrsGE n v = true)
    (hr : ∀ h2 o, r = some (h2, o) →
      Evolves n h1 h2 ∧ ∀ xs', o = .ok xs' → listAddrsGE n xs' = true)
    (heq : hConsResL v r = some (h', out)) :
    Evolves n h1 h' ∧ ∀ xs', out = .ok xs' → listAddrsGE n xs' = true := by
  cases r with
  | none => simp [hConsResL] at heq
  | some p =>
    obtain ⟨h2, o⟩ := p
    obtain ⟨he, ho⟩ := hr h2 o rfl
    cases o with
    | error e =>
      simp only [hConsResL, Option.some.injEq, Prod.mk.injEq] at heq
      obtain ⟨rfl, rfl⟩ := heq
      exact ⟨he, fun xs' hxs' => by cases hxs'⟩
    | ok rest' =>
      simp only [hConsResL, Option.some.injEq, Prod.mk.injEq] at heq
      obtain ⟨rfl, rfl⟩ := heq
      refine ⟨he, fun xs' hxs' => ?_⟩
      cases hxs'
      simp [listAddrsGE, hv, ho rest' rfl]

/-- Helper: frame property of the address-explicit traversal.  For any
boundary `n` not exceeding the heap length, with the region above `n`
closed: the struct transform evolves the heap (cells below `n` are never
written) and its successful result mentions only addresses `≥ n` unless it
is the unchanged input; the per-field loop and the slice element loop do the
same on field/element lists mentioning only addresses `≥ n`. -/
theorem hTrav_frame :
    ∀ (fuel n : Nat) (leaf : Leaf) (key tagName tagVal : String),
    (∀ h input h' out err,
      hStructTag fuel leaf key tagName tagVal h input = some (h', out, err) →
      n ≤ h.length → ClosedAbove n h →
      Evolves n h h' ∧ (err = none → addrsGE n out = true ∨ out = input)) ∧
    (∀ h fs h' r,
      hFieldsTag fuel leaf key tagName tagVal h fs = some (h', r) →
      n ≤ h.length → ClosedAbove n h → fieldsAddrsGE n fs = true →
      Evolves n h h' ∧ ∀ fs', r = .ok fs' → fieldsAddrsGE n fs' = true) ∧
    (∀ h xs h' r,
      hSliceElems fuel leaf key tagName tagVal h xs = some (h', r) →
      n ≤ h.length → ClosedAbove n h → listAddrsGE n xs = true →
      Evolves n h h' ∧ ∀ xs', r = .ok xs' → listAddrsGE n xs' = true) := by
  intro fuel
  induction fuel with
  | zero =>
    intro n leaf key tagName tagVal
    refine ⟨?_, ?_, ?_⟩
    · intro h input h' out err heq; simp [hStructTag] at heq
    · intro h fs h' r heq; simp [hFieldsTag] at heq
    · intro h xs h' r heq; simp [hSliceElems] at heq
  | succ fuel ih =>
    intro n leaf key tagName tagVal
    obtain ⟨ihS, ihF, ihE⟩ := ih n leaf key tagName tagVal
    refine ⟨?_, ?_, ?_⟩
    · -- hStructTag
      intro h input h' out err heq hlen hcl
      by_cases hk : key = ""
      · simp only [hStructTag, if_pos hk, Option.some.injEq, Prod.mk.injEq] at heq
        obtain ⟨rfl, rfl, rfl⟩ := heq
        exact ⟨evolves_refl hcl, fun _ => Or.inr rfl⟩
      · cases hc : hCopy fuel h input with
        | none => simp [hStructTag, if_neg hk, hc] at heq
        | some p =>
          obtain ⟨h1, c⟩ := p
          obtain ⟨heC, haC⟩ := (hCopy_frame fuel n).1 h input h1 c hc hlen hcl
          have hcl1 : ClosedAbove n h1 := heC.2.2
          have hlen1 : n ≤ h1.length := hlen.trans heC.2.1
          cases c with
          | hstruct fs =>
            have hfs : fieldsAddrsGE n fs = true := by simpa [addrsGE] using haC
            cases hf : hFieldsTag fuel leaf key tagName tagVal h1 fs with
            | none => simp [hStructTag, if_neg hk, hc, hf] at heq
            | some q =>
              obtain ⟨h2, r⟩ := q
              obtain ⟨heF, haF⟩ := ihF h1 fs h2 r hf hlen1 hcl1 hfs
              cases r with
              | error e =>
                simp only [hStructTag, if_neg hk, hc, hf, Option.some.injEq,
                  Prod.mk.injEq] at heq
                obtain ⟨rfl, rfl, rfl⟩ := heq
                exact ⟨evolves_trans heC heF, by simp⟩
              | ok fs' =>
                simp only [hStructTag, if_neg hk, hc, hf, Option.some.injEq,
                  Prod.mk.injEq] at heq
                obtain ⟨rfl, rfl, rfl⟩ := heq
                exact ⟨evolves_trans heC heF,
                  fun _ => Or.inl (by simpa [addrsGE] using haF fs' rfl)⟩
          | hptr a =>
            have hna : n ≤ a := by simpa [addrsGE] using haC
            cases hga : h1[a]? with
            | none => simp [hStructTag, if_neg hk, hc, hga] at heq
            | some cell =>
              cases cell with
              | carr xs =>
                simp only [hStructTag, if_neg hk, hc, hga, Option.some.injEq,
                  Prod.mk.injEq] at heq
                obtain ⟨rfl, rfl, rfl⟩ := heq
                exact ⟨heC, by simp⟩
              | cval cv =>
                cases cv with
                | hstruct fs =>
                  have hfs : fieldsAddrsGE n fs = true := by
                    simpa [cellAddrsGE, addrsGE] using hcl1 a (.cval (.hstruct fs)) hna hga
                  cases hf : hFieldsTag fuel leaf key tagName tagVal h1 fs with
                  | none => simp [hStructTag, if_neg hk, hc, hga, hf] at heq
                  | some q =>
                    obtain ⟨h2, r⟩ := q
                    obtain ⟨heF, haF⟩ := ihF h1 fs h2 r hf hlen1 hcl1 hfs
                    have hlen2 : n ≤ h2.length := hlen1.trans heF.2.1
                    cases r with
                    | error e =>
                      simp only [hStructTag, if_neg hk, hc, hga, hf, Option.some.injEq,
                        Prod.mk.injEq] at heq
                      obtain ⟨rfl, rfl, rfl⟩ := heq
                      exact ⟨evolves_trans heC heF, by simp⟩
                    | ok fs' =>
                      simp only [hStructTag, if_neg hk, hc, hga, hf, Option.some.injEq,
                        Prod.mk.injEq] at heq
                      obtain ⟨rfl, rfl, rfl⟩ := heq
                      refine ⟨evolves_trans heC (evolves_trans heF
                        (evolves_append heF.2.2 hlen2
                          (by simpa [cellAddrsGE, addrsGE] using haF fs' rfl))),
                        fun _ => Or.inl ?_⟩
                      simp [addrsGE]
                      omega
                | htime t =>
                  simp only [hStructTag, if_neg hk, hc, hga, Option.some.injEq,
                    Prod.mk.injEq] at heq
                  obtain ⟨rfl, rfl, rfl⟩ := heq
                  refine ⟨evolves_trans heC
                    (evolves_append hcl1 hlen1 (by simp [cellAddrsGE, addrsGE])),
                    fun _ => Or.inl ?_⟩
                  simp [addrsGE]
                  omega
                | hstr s =>
                  simp only [hStructTag, if_neg hk, hc, hga, Option.some.injEq,
                    Prod.mk.injEq] at heq
                  obtain ⟨rfl, rfl, rfl⟩ := heq
                  exact ⟨heC, by simp⟩
                | hint m =>
                  simp only [hStructTag, if_neg hk, hc, hga, Option.some.injEq,
                    Prod.mk.injEq] at heq
                  obtain ⟨rfl, rfl, rfl⟩ := heq
                  exact ⟨heC, by simp⟩
                | hbool b =>
                  simp only [hStructTag, if_neg hk, hc, hga, Option.some.injEq,
                    Prod.mk.injEq] at heq
                  obtain ⟨rfl, rfl, rfl⟩ := heq
                  exact ⟨heC, by simp⟩
                | hptrNil =>
                  simp only [hStructTag, if_neg hk, hc, hga, Option.some.injEq,
                    Prod.mk.injEq] at heq
                  obtain ⟨rfl, rfl, rfl⟩ := heq
                  exact ⟨heC, by simp⟩
                | hptr a2 =>
                  simp only [hStructTag, if_neg hk, hc, hga, Option.some.injEq,
                    Prod.mk.injEq] at heq
                  obtain ⟨rfl, rfl, rfl⟩ := heq
                  exact ⟨heC, by simp⟩
                | hslice a2 =>
                  simp only [hStructTag, if_neg hk, hc, hga, Option.some.injEq,
                    Prod.mk.injEq] at heq
                  obtain ⟨rfl, rfl, rfl⟩ := heq
                  exact ⟨heC, by simp⟩
          | htime t =>
            simp only [hStructTag, if_neg hk, hc, Option.some.injEq, Prod.mk.injEq] at heq
            obtain ⟨rfl, rfl, rfl⟩ := heq
            exact ⟨heC, fun _ => Or.inl (by simp [addrsGE])⟩
          | hptrNil => simp [hStructTag, if_neg hk, hc] at heq
          | hstr s =>
            simp only [hStructTag, if_neg hk, hc, Option.some.injEq, Prod.mk.injEq] at heq
            obtain ⟨rfl, rfl, rfl⟩ := heq
            exact ⟨heC, by simp⟩
          | hint m =>
            simp only [hStructTag, if_neg hk, hc, Option.some.injEq, Prod.mk.injEq] at heq
            obtain ⟨rfl, rfl, rfl⟩ := heq
            exact ⟨heC, by simp⟩
          | hbool b =>
            simp only [hStructTag, if_neg hk, hc, Option.some.injEq, Prod.mk.injEq] at heq
            obtain ⟨rfl, rfl, rfl⟩ := heq
            exact ⟨heC, by simp⟩
          | hslice a =>
            simp only [hStructTag, if_neg hk, hc, Option.some.injEq, Prod.mk.injEq] at heq
            obtain ⟨rfl, rfl, rfl⟩ := heq
            exact ⟨heC, by simp⟩
    · -- hFieldsTag
      intro h fs h' r heq hlen hcl haddrs
      cases fs with
      | nil =>
        simp only [hFieldsTag, Option.some.injEq, Prod.mk.injEq] at heq
        obtain ⟨rfl, rfl⟩ := heq
        exact ⟨evolves_refl hcl, fun fs' hfs' => by cases hfs'; rfl⟩
      | cons tags v rest =>
        simp only [fieldsAddrsGE, Bool.and_eq_true] at haddrs
        obtain ⟨hv, hrest⟩ := haddrs
        cases v with
        | htime t =>
          simp only [hFieldsTag] at heq
          exact hConsRes_frame hv
            (fun h2 o hrec => ihF h rest h2 o hrec hlen hcl hrest) heq
        | hptrNil =>
          simp only [hFieldsTag] at heq
          exact hConsRes_frame hv
            (fun h2 o hrec => ihF h rest h2 o hrec hlen hcl hrest) heq
        | hint m =>
          simp only [hFieldsTag] at heq
          exact hConsRes_frame hv
            (fun h2 o hrec => ihF h rest h2 o hrec hlen hcl hrest) heq
        | hbool b =>
          simp only [hFieldsTag] at heq
          exact hConsRes_frame hv
            (fun h2 o hrec => ihF h rest h2 o hrec hlen hcl hrest) heq
        | hslice a =>
          simp only [hFieldsTag] at heq
          exact hConsRes_frame hv
            (fun h2 o hrec => ihF h rest h2 o hrec hlen hcl hrest) heq
        | hstr s =>
          simp only [hFieldsTag] at heq
          by_cases htag : tagGet tags tagName = tagVal
          · rw [if_pos htag] at heq
            cases hlf : leaf s key with
            | error e =>
              simp only [hlf, Option.some.injEq, Prod.mk.injEq] at heq
              obtain ⟨rfl, rfl⟩ := heq
              exact ⟨evolves_refl hcl, fun fs' hfs' => by cases hfs'⟩
            | ok s' =>
              simp only [hlf] at heq
              exact hConsRes_frame (by simp [addrsGE])
                (fun h2 o hrec => ihF h rest h2 o hrec hlen hcl hrest) heq
          · rw [if_neg htag] at heq
            exact hConsRes_frame hv
              (fun h2 o hrec => ihF h rest h2 o hrec hlen hcl hrest) heq
        | hstruct fs2 =>
          cases hst : hStructTag fuel leaf key tagName tagVal h (.hstruct fs2) with
          | none => simp [hFieldsTag, hst] at heq
          | some q =>
            obtain ⟨h2, out2, err2⟩ := q
            obtain ⟨heS, haS⟩ := ihS h (.hstruct fs2) h2 out2 err2 hst hlen hcl
            cases err2 with
            | some e =>
              simp only [hFieldsTag, hst, Option.some.injEq, Prod.mk.injEq] at heq
              obtain ⟨rfl, rfl⟩ := heq
              exact ⟨heS, fun fs' hfs' => by cases hfs'⟩
            | none =>
              have hout2 : addrsGE n out2 = true := by
                rcases haS rfl with h1 | h1
                · exact h1
                · rw [h1]; exact hv
              simp only [hFieldsTag, hst] at heq
              obtain ⟨hev, hok⟩ := hConsRes_frame hout2
                (fun h3 o hrec =>
                  ihF h2 rest h3 o hrec (hlen.trans heS.2.1) heS.2.2 hrest) heq
              exact ⟨evolves_trans heS hev, hok⟩
        | hptr a =>
          have hna : n ≤ a := by simpa [addrsGE] using hv
          simp only [hFieldsTag] at heq
          cases hga : h[a]? with
          | none =>
            simp only [hga] at heq
            exact hConsRes_frame hv
              (fun h2 o hrec => ihF h rest h2 o hrec hlen hcl hrest) heq
          | some cell =>
            cases cell with
            | carr xs =>
              simp only [hga] at heq
              exact hConsRes_frame hv
                (fun h2 o hrec => ihF h rest h2 o hrec hlen hcl hrest) heq
            | cval cv =>
              cases cv with
              | htime t =>
                simp only [hga] at heq
                exact hConsRes_frame hv
                  (fun h2 o hrec => ihF h rest h2 o hrec hlen hcl hrest) heq
              | hint m =>
                simp only [hga] at heq
                exact hConsRes_frame hv
                  (fun h2 o hrec => ihF h rest h2 o hrec hlen hcl hrest) heq
              | hbool b =>
                simp only [hga] at heq
                exact hConsRes_frame hv
                  (fun h2 o hrec => ihF h rest h2 o hrec hlen hcl hrest) heq
              | hptrNil =>
                simp only [hga] at heq
                exact hConsRes_frame hv
                  (fun h2 o hrec => ihF h rest h2 o hrec hlen hcl hrest) heq
              | hptr a2 =>
                simp only [hga] at heq
                exact hConsRes_frame hv
                  (fun h2 o hrec => ihF h rest h2 o hrec hlen hcl hrest) heq
              | hslice a2 =>
                simp only [hga] at heq
                exact hConsRes_frame hv
                  (fun h2 o hrec => ihF h rest h2 o hrec hlen hcl hrest) heq
              | hstr s =>
                simp only [hga] at heq
                by_cases htag : tagGet tags tagName = tagVal
                · rw [if_pos htag] at heq
                  cases hlf : leaf s key with
                  | error e =>
                    simp only [hlf, Option.some.injEq, Prod.mk.injEq] at heq
                    obtain ⟨rfl, rfl⟩ := heq
                    exact ⟨evolves_refl hcl, fun fs' hfs' => by cases hfs'⟩
                  | ok s' =>
                    simp only [hlf] at heq
                    have hset : Evolves n h (h.set a (.cval (.hstr s'))) :=
                      evolves_set hcl hna (by simp [cellAddrsGE, addrsGE])
                    have hlenS : n ≤ (h.set a (.cval (.hstr s'))).length := by
                      simpa using hlen
                    obtain ⟨hev, hok⟩ := hConsRes_frame hv
                      (fun h2 o hrec =>
                        ihF _ rest h2 o hrec hlenS hset.2.2 hrest) heq
                    exact ⟨evolves_trans hset hev, hok⟩
                · rw [if_neg htag] at heq
                  exact hConsRes_frame hv
                    (fun h2 o hrec => ihF h rest h2 o hrec hlen hcl hrest) heq
              | hstruct fs2 =>
                cases hst : hStructTag fuel leaf key tagName tagVal h (.hstruct fs2) with
                | none => simp [hga, hst] at heq
                | some q =>
                  obtain ⟨h2, out2, err2⟩ := q
                  obtain ⟨heS, haS⟩ := ihS h (.hstruct fs2) h2 out2 err2 hst hlen hcl
                  cases err2 with
                  | some e =>
                    simp only [hga, hst, Option.some.injEq, Prod.mk.injEq] at heq
                    obtain ⟨rfl, rfl⟩ := heq
                    exact ⟨heS, fun fs' hfs' => by cases hfs'⟩
                  | none =>
                    cases out2 with
                    | hstruct fs2' =>
                      have hfs2' : fieldsAddrsGE n fs2' = true := by
                        rcases haS rfl with h1 | h1
                        · simpa [addrsGE] using h1
                        · injection h1 with h2'
                          subst h2'
                          simpa [cellAddrsGE, addrsGE] using hcl a _ hna hga
                      have hset : Evolves n h2 (h2.set a (.cval (.hstruct fs2'))) :=
                        evolves_set heS.2.2 hna
                          (by simpa [cellAddrsGE, addrsGE] using hfs2')
                      have hlenS : n ≤ (h2.set a (.cval (.hstruct fs2'))).length := by
                        simpa using hlen.trans heS.2.1
                      simp only [hga, hst] at heq
                      obtain ⟨hev, hok⟩ := hConsRes_frame hv
                        (fun h3 o hrec =>
                          ihF _ rest h3 o hrec hlenS hset.2.2 hrest) heq
                      exact ⟨evolves_trans heS (evolves_trans hset hev), hok⟩
                    | hstr s => simp [hga, hst] at heq
                    | hint m => simp [hga, hst] at heq
                    | hbool b => simp [hga, hst] at heq
                    | htime t => simp [hga, hst] at heq
                    | hptrNil => simp [hga, hst] at heq
                    | hptr a3 => simp [hga, hst] at heq
                    | hslice a3 => simp [hga, hst] at heq
    · -- hSliceElems
      intro h xs h' r heq hlen hcl haddrs
      cases xs with
      | nil =>
        simp only [hSliceElems, Option.some.injEq, Prod.mk.injEq] at heq
        obtain ⟨rfl, rfl⟩ := heq
        exact ⟨evolves_refl hcl, fun xs' hxs' => by cases hxs'; rfl⟩
      | cons item rest =>
        simp only [listAddrsGE, Bool.and_eq_true] at haddrs
        obtain ⟨hv, hrest⟩ := haddrs
        simp only [hSliceElems] at heq
        by_cases hd : (hIsStructKind item || hIsPtrStructKind h item) = true
        · rw [if_pos hd] at heq
          cases hst : hStructTag fuel leaf key tagName tagVal h item with
          | none => simp [hst] at heq
          | some q =>
            obtain ⟨h2, out2, err2⟩ := q
            obtain ⟨heS, haS⟩ := ihS h item h2 out2 err2 hst hlen hcl
            cases err2 with
            | some e =>
              simp only [hst, Option.some.injEq, Prod.mk.injEq] at heq
              obtain ⟨rfl, rfl⟩ := heq
              exact ⟨heS, fun xs' hxs' => by cases hxs'⟩
            | none =>
              have hout2 : addrsGE n out2 = true := by
                rcases haS rfl with h1 | h1
                · exact h1
                · rw [h1]; exact hv
              simp only [hst] at heq
              obtain ⟨hev, hok⟩ := hConsResL_frame hout2
                (fun h3 o hrec =>
                  ihE h2 rest h3 o hrec (hlen.trans heS.2.1) heS.2.2 hrest) heq
              exact ⟨evolves_trans heS hev, hok⟩
        · rw [if_neg hd] at heq
          exact hConsResL_frame hv
            (fun h2 o hrec => ihE h rest h2 o hrec hlen hcl hrest) heq

/-- Helper: frame property of the slice entry point. -/
theorem hSliceTag_frame (fuel n : Nat) (leaf : Leaf) (key tagName tagVal : String)
    (h : Heap) (input : HVal) (h' : Heap) (out : HVal) (err : Option String)
    (heq : hSliceTag fuel leaf key tagName tagVal h input = some (h', out, err))
    (hlen : n ≤ h.length) (hcl : ClosedAbove n h) :
    Evolves n h h' := by
  cases fuel with
  | zero => simp [hSliceTag] at heq
  | succ fuel =>
    by_cases hk : key = ""
    · simp only [hSliceTag, if_pos hk, Option.some.injEq, Prod.mk.injEq] at heq
      obtain ⟨rfl, rfl, rfl⟩ := heq
      exact evolves_refl hcl
    · cases hc : hCopy fuel h input with
      | none => simp [hSliceTag, if_neg hk, hc] at heq
      | some p =>
        obtain ⟨h1, c⟩ := p
        obtain ⟨heC, haC⟩ := (hCopy_frame fuel n).1 h input h1 c hc hlen hcl
        cases c with
        | hslice a =>
          have hna : n ≤ a := by simpa [addrsGE] using haC
          cases hga : h1[a]? with
          | none => simp [hSliceTag, if_neg hk, hc, hga] at heq
          | some cell =>
            cases cell with
            | cval cv => simp [hSliceTag, if_neg hk, hc, hga] at heq
            | carr xs =>
              have hxs : listAddrsGE n xs = true := by
                simpa [cellAddrsGE] using heC.2.2 a _ hna hga
              cases hse : hSliceElems fuel leaf key tagName tagVal h1 xs with
              | none => simp [hSliceTag, if_neg hk, hc, hga, hse] at heq
              | some q =>
                obtain ⟨h2, r⟩ := q
                obtain ⟨heE, haE⟩ := (hTrav_frame fuel n leaf key tagName tagVal).2.2
                  h1 xs h2 r hse (hlen.trans heC.2.1) heC.2.2 hxs
                cases r with
                | error e =>
                  simp only [hSliceTag, if_neg hk, hc, hga, hse, Option.some.injEq,
                    Prod.mk.injEq] at heq
                  obtain ⟨rfl, rfl, rfl⟩ := heq
                  exact evolves_trans heC heE
                | ok xs' =>
                  simp only [hSliceTag, if_neg hk, hc, hga, hse, Option.some.injEq,
                    Prod.mk.injEq] at heq
                  obtain ⟨rfl, rfl, rfl⟩ := heq
                  exact evolves_trans heC (evolves_trans heE
                    (evolves_set heE.2.2 hna (by simpa [cellAddrsGE] using haE xs' rfl)))
        | hstr s =>
          simp only [hSliceTag, if_neg hk, hc, Option.some.injEq, Prod.mk.injEq] at heq
          obtain ⟨rfl, rfl, rfl⟩ := heq
          exact heC
        | hint m =>
          simp only [hSliceTag, if_neg hk, hc, Option.some.injEq, Prod.mk.injEq] at heq
          obtain ⟨rfl, rfl, rfl⟩ := heq
          exact heC
        | hbool b =>
          simp only [hSliceTag, if_neg hk, hc, Option.some.injEq, Prod.mk.injEq] at heq
          obtain ⟨rfl, rfl, rfl⟩ := heq
          exact heC
        | htime t =>
          simp only [hSliceTag, if_neg hk, hc, Option.some.injEq, Prod.mk.injEq] at heq
          obtain ⟨rfl, rfl, rfl⟩ := heq
          exact heC
        | hptrNil =>
          simp only [hSliceTag, if_neg hk, hc, Option.some.injEq, Prod.mk.injEq] at heq
          obtain ⟨rfl, rfl, rfl⟩ := heq
          exact heC
        | hptr a =>
          simp only [hSliceTag, if_neg hk, hc, Option.some.injEq, Prod.mk.injEq] at heq
          obtain ⟨rfl, rfl, rfl⟩ := heq
          exact heC
        | hstruct fs =>
          simp only [hSliceTag, if_neg hk, hc, Option.some.injEq, Prod.mk.injEq] at heq
          obtain ⟨rfl, rfl, rfl⟩ := heq
          exact heC

/-- Helper: frame property of the interface entry point. -/
theorem hInterfaceTag_frame (fuel n : Nat) (leaf : Leaf) (key tagName tagVal : String)
    (h : Heap) (input : HVal) (h' : Heap) (out : HVal) (err : Option String)
    (heq : hInterfaceTag fuel leaf key tagName tagVal h input = some (h', out, err))
    (hlen : n ≤ h.length) (hcl : ClosedAbove n h) :
    Evolves n h h' := by
  cases fuel with
  | zero => simp [hInterfaceTag] at heq
  | succ fuel =>
    by_cases hk : key = ""
    · simp only [hInterfaceTag, if_pos hk, Option.some.injEq, Prod.mk.injEq] at heq
      obtain ⟨rfl, rfl, rfl⟩ := heq
      exact evolves_refl hcl
    · by_cases hs : (hIsStructKind input || hIsPtrStructKind h input) = true
      · simp only [hInterfaceTag] at heq
        rw [if_neg hk, if_pos hs] at heq
        cases hst : hStructTag fuel leaf key tagName tagVal h input with
        | none => simp [hst] at heq
        | some q =>
          obtain ⟨h2, out2, err2⟩ := q
          have hframe := (hTrav_frame fuel n leaf key tagName tagVal).1
            h input h2 out2 err2 hst hlen hcl
          cases err2 with
          | some e =>
            simp only [hst, Option.some.injEq, Prod.mk.injEq] at heq
            obtain ⟨rfl, rfl, rfl⟩ := heq
            exact hframe.1
          | none =>
            simp only [hst, Option.some.injEq, Prod.mk.injEq] at heq
            obtain ⟨rfl, rfl, rfl⟩ := heq
            exact hframe.1
      · by_cases hsl : hIsSliceKind input = true
        · simp only [hInterfaceTag] at heq
          rw [if_neg hk, if_neg hs, if_pos hsl] at heq
          cases hst : hSliceTag fuel leaf key tagName tagVal h input with
          | none => simp [hst] at heq
          | some q =>
            obtain ⟨h2, out2, err2⟩ := q
            have hframe := hSliceTag_frame fuel n leaf key tagName tagVal
              h input h2 out2 err2 hst hlen hcl
            cases err2 with
            | some e =>
              simp only [hst, Option.some.injEq, Prod.mk.injEq] at heq
              obtain ⟨rfl, rfl, rfl⟩ := heq
              exact hframe
            | none =>
              simp only [hst, Option.some.injEq, Prod.mk.injEq] at heq
              obtain ⟨rfl, rfl, rfl⟩ := heq
              exact hframe
        · simp only [hInterfaceTag] at heq
          rw [if_neg hk, if_neg hs, if_neg hsl] at heq
          simp only [Option.some.injEq, Prod.mk.injEq] at heq
          obtain ⟨rfl, rfl, rfl⟩ := heq
          exact evolves_refl hcl

/-- C2: in the address-explicit model, after any call to a transform entry
point (struct, slice or interface; success or failure; any leaf cipher,
hence either direction), every heap cell that existed before the call is
unchanged — in particular every record, reference target and sequence
element reachable from the caller's argument, all of which live in those
cells; only freshly allocated cells (the spec-modelled deep copy and the
transform's output) differ.  The caller's argument itself is an immutable
term here, so the whole original value graph reads back unchanged. -/
theorem callerHeap_unchanged (fuel : Nat) (leaf : Leaf) (key tagName tagVal : String)
    (h h' : Heap) (input out : HVal) (err : Option String) :
    (hStructTag fuel leaf key tagName tagVal h input = some (h', out, err) →
      ∀ b, b < h.length → h'[b]? = h[b]?) ∧
    (hSliceTag fuel leaf key tagName tagVal h input = some (h', out, err) →
      ∀ b, b < h.length → h'[b]? = h[b]?) ∧
    (hInterfaceTag fuel leaf key tagName tagVal h input = some (h', out, err) →
      ∀ b, b < h.length → h'[b]? = h[b]?) := by
  refine ⟨fun heq b hb => ?_, fun heq b hb => ?_, fun heq b hb => ?_⟩
  · exact ((hTrav_frame fuel h.length leaf key tagName tagVal).1 h input h' out err
      heq le_rfl (closedAbove_length h)).1.1 b hb
  · exact (hSliceTag_frame fuel h.length leaf key tagName tagVal h input h' out err
      heq le_rfl (closedAbove_length h)).1 b hb
  · exact (hInterfaceTag_frame fuel h.length leaf key tagName tagVal h input h' out err
      heq le_rfl (closedAbove_length h)).1 b hb

/-- C2 witness: transforming a record whose tagged `*string` field points at
cell 0 leaves cell 0 (the caller's reference target) unchanged; the marked
string lives in a fresh cell. -/
theorem callerHeap_unchanged_witness : hHeapOut[0]? = hHeap0[0]? :=
  (callerHeap_unchanged 9 leafMark "k" "enc" "x" hHeap0 hHeapOut hIn0 hOut0 none).1
    (by rfl) 0 (by decide)

end GoLogging
